import Mathlib

/- Verification of the decoding engine of `kovlive.py` (class `KovLang`).

   Modelling conventions:
   * Python strings are finite sequences of characters; we model them as `List Char`
     (`Tok`).  `s[-1]` and `s[0]` on a nonempty string become `lastTok` / `firstTok`;
     on the empty string the source would raise `IndexError`, our total versions
     return `[]`, and theorems about full decodes carry nonemptiness hypotheses
     wherever that distinction could matter.
   * Python dicts are insertion-ordered maps; we model them as association lists:
     `alookup` is `dict[k]` / `k in dict`, `aupdate` is `dict[k] = v` (updating an
     existing key keeps its position, a fresh key is appended at the end), and
     iteration over `.items()` or over a dict's keys is iteration over the list.
   * The source computes probabilities with IEEE floats; we idealize float
     arithmetic as exact rational arithmetic over `ℚ`.
   * Every cost in the source is `-math.log p` for a product `p` of positive
     rationals, and the search only ever adds costs and compares them.  Since
     `fun p => -Real.log p` is strictly order-reversing and turns products into
     sums, we represent the cost `-log p` exactly by the probability `p` itself
     (type `NLog`), with addition `⟨p⟩ + ⟨q⟩ = ⟨p * q⟩` and the reversed order
     `⟨p⟩ ≤ ⟨q⟩ ↔ q ≤ p`.  `NLog.inf = ⟨0⟩` plays the role of `float("inf")`
     (the source's initial minimum in the final selection loop): `-log 0 = ∞`,
     and `⟨q⟩ < NLog.inf` holds exactly for `q > 0`, i.e. for every cost the
     source could actually have computed (`math.log` raises on `p ≤ 0`).
     The bridge lemmas `NLog.le_iff_log`, `NLog.lt_iff_log` and `NLog.add_log`
     below justify this representation against the real-valued costs. -/

/-- A Python string: a finite sequence of characters. -/
abbrev Tok := List Char

/-- The default start marker `"<s>"`. -/
def sSym : Tok := "<s>".data

/-- The default end marker `"</s>"`. -/
def eSym : Tok := "</s>".data

/-- The wildcard marker `"*"` used in backoff keys of the bigram table. -/
def star : Tok := "*".data

/-- Association-list lookup: `d[k]` (also deciding `k in d`). -/
def alookup {α β : Type} [DecidableEq α] : List (α × β) → α → Option β
  | [], _ => none
  | (k, v) :: rest, k' => if k' = k then some v else alookup rest k'

/-- Association-list store `d[k] = v`: an existing key keeps its position in
iteration order, a fresh key is appended at the end (Python dict semantics). -/
def aupdate {α β : Type} [DecidableEq α] : List (α × β) → α → β → List (α × β)
  | [], k, v => [(k, v)]
  | (k', v') :: rest, k, v =>
    if k = k' then (k, v) :: rest else (k', v') :: aupdate rest k v

/-- The two probability tables owned by a `KovLang` instance:
`self.phrasemodel`, `self.unimodel` and `self.bimodel`. -/
structure KovModel where
  phrasemodel : List (Tok × List (Tok × ℚ))
  unimodel : List (Tok × ℚ)
  bimodel : List ((Tok × Tok) × ℚ)
deriving DecidableEq

/-- `KovLang.bigram_prob` (src/kovlive.py lines 56-77) with `log=False`: the raw
smoothed bigram probability.  The `log=True` branch of the source returns
`-math.log` of this value; see the `NLog` conventions above. -/
def bigram_prob (m : KovModel) (w0 w1 : Tok) (lambda2 lambda1 unk_n : ℚ) : ℚ :=
  let prob0 := (1 - lambda2) * (1 - lambda1) * (1 / unk_n)
  let prob1 :=
    match alookup m.bimodel (w0, w1) with
    | some p => prob0 + lambda2 * p
    | none =>
      match alookup m.bimodel (w0, star) with
      | some p => prob0 + lambda2 * p
      | none => prob0
  match alookup m.unimodel w1 with
  | some p => prob1 + (1 - lambda2) * lambda1 * p
  | none => prob1

/-- `bigram_prob` at the source's default parameters
`lambda2 = lambda1 = 0.95`, `unk_n = 1e6`. -/
def bigram_probD (m : KovModel) (w0 w1 : Tok) : ℚ :=
  bigram_prob m w0 w1 (19/20) (19/20) 1000000

/-- `KovLang.phrase_prob` (src/kovlive.py lines 79-95) with `log=False`: the raw
smoothed phrase-translation probability. -/
def phrase_prob (m : KovModel) (p1 p2 : Tok) (lambda1 unk_n : ℚ) : ℚ :=
  let prob0 := (1 - lambda1) * (1 / unk_n)
  match alookup m.phrasemodel p1 with
  | some inner =>
    match alookup inner p2 with
    | some q => prob0 + lambda1 * q
    | none => prob0
  | none => prob0

/-- `phrase_prob` at the source's default parameters `lambda1 = 0.95`, `unk_n = 1e6`. -/
def phrase_probD (m : KovModel) (p1 p2 : Tok) : ℚ :=
  phrase_prob m p1 p2 (19/20) 1000000

/-- The test `p1 in self.phrasemodel and p2 in self.phrasemodel[p1]`. -/
def phraseHasPair (m : KovModel) (p1 p2 : Tok) : Bool :=
  match alookup m.phrasemodel p1 with
  | some inner => (alookup inner p2).isSome
  | none => false

/-- Claim C1's reading of `bigram_prob`, written exactly as the claim words it:
the backoff term uses a wildcard-PREVIOUS key, i.e. the entry stored under
`("*", cur)`, "the wildcard-previous backoff entry for cur".  This definition
follows the claim's words (not the source) and exists only to be compared with
`bigram_probD`, which is translated from the source. -/
def bigram_prob_spec (m : KovModel) (w0 w1 : Tok) : ℚ :=
  (1 - (19 : ℚ)/20) * (1 - (19 : ℚ)/20) * (1 / 1000000)
    + (match alookup m.bimodel (w0, w1) with
       | some p => (19 : ℚ)/20 * p
       | none =>
         match alookup m.bimodel (star, w1) with
         | some p => (19 : ℚ)/20 * p
         | none => 0)
    + (match alookup m.unimodel w1 with
       | some p => (1 - (19 : ℚ)/20) * ((19 : ℚ)/20) * p
       | none => 0)

/-- Claim C1 amended: the same interpolated sum, but the backoff term is the
wildcard-CURRENT entry stored under `(prev, "*")` — the key the source actually
queries (`self.bimodel[(w0, "*")]`, src/kovlive.py line 68-69). -/
def bigram_prob_interp (m : KovModel) (w0 w1 : Tok) : ℚ :=
  (1 - (19 : ℚ)/20) * (1 - (19 : ℚ)/20) * (1 / 1000000)
    + (match alookup m.bimodel (w0, w1) with
       | some p => (19 : ℚ)/20 * p
       | none =>
         match alookup m.bimodel (w0, star) with
         | some p => (19 : ℚ)/20 * p
         | none => 0)
    + (match alookup m.unimodel w1 with
       | some p => (1 - (19 : ℚ)/20) * ((19 : ℚ)/20) * p
       | none => 0)

/-- A search cost `-log val`, represented by the probability product `val`
itself (see the header comment).  Order and addition are reversed images of
the real-valued costs under `fun p => -Real.log p`. -/
structure NLog where
  val : ℚ
deriving DecidableEq

instance : LE NLog := ⟨fun a b => b.val ≤ a.val⟩

instance : LT NLog := ⟨fun a b => b.val < a.val⟩

instance : Add NLog := ⟨fun a b => ⟨a.val * b.val⟩⟩

instance (a b : NLog) : Decidable (a ≤ b) :=
  inferInstanceAs (Decidable (b.val ≤ a.val))

instance (a b : NLog) : Decidable (a < b) :=
  inferInstanceAs (Decidable (b.val < a.val))

/-- The cost `0` (`best[0][(start_symbol, (0, 0))] = 0`): `-log 1 = 0`. -/
def NLog.zero : NLog := ⟨1⟩

/-- The cost `float("inf")` (`min_val = float("inf")`): `-log 0 = ∞`. -/
def NLog.inf : NLog := ⟨0⟩

/-- The cost of a bigram transition in the search:
`self.bigram_prob(conv_w0, conv_w1)` with `log=True` and default parameters. -/
def bigramCost (m : KovModel) (w0 w1 : Tok) : NLog := ⟨bigram_probD m w0 w1⟩

/-- The cost of a phrase rewrite in the search:
`self.phrase_prob(p1, p2)` with `log=True` and default parameters. -/
def phraseCost (m : KovModel) (p1 p2 : Tok) : NLog := ⟨phrase_probD m p1 p2⟩

/-- A lattice state key: `(converted phrase, (start, end))`. -/
abbrev Key := Tok × ℕ × ℕ

/-- A relaxation event: `(next_key, next_prob, cur_key)`. -/
abbrev TransEv := Key × NLog × Key

/-- One position's pair of tables: `best[next_end]` and `before_pos[next_end]`. -/
abbrev Cell := List (Key × NLog) × List (Key × Key)

/-- One relaxation (src/kovlive.py lines 141-147 and 159-165): on a fresh key,
insert cost and predecessor; on a known key, overwrite both exactly when the
stored cost is `>=` the new cost. -/
def relax (cell : Cell) (t : TransEv) : Cell :=
  match alookup cell.1 t.1 with
  | some v =>
    if t.2.1 ≤ v then (aupdate cell.1 t.1 t.2.1, aupdate cell.2 t.1 t.2.2)
    else cell
  | none => (aupdate cell.1 t.1 t.2.1, aupdate cell.2 t.1 t.2.2)

/-- Relax a list of transition events in order. -/
def relaxFold (cell : Cell) (ts : List TransEv) : Cell := ts.foldl relax cell

/-- The relaxation invariant of claim C3, for one position's pair of tables
built by relaxing the event list `ts` in order into initially empty tables:
a key is absent exactly when no event carries it; a present key stores the
minimum cost over all events that carry it, and its predecessor entry is the
predecessor of an event that carries the key at exactly that minimum cost. -/
def RelaxInv (cell : Cell) (ts : List TransEv) : Prop :=
  ∀ k : Key,
    (alookup cell.1 k = none ↔ (∀ t ∈ ts, t.1 ≠ k)) ∧
    (alookup cell.1 k = none → alookup cell.2 k = none) ∧
    (∀ c : NLog, alookup cell.1 k = some c →
      (∃ t ∈ ts, t.1 = k ∧ t.2.1 = c) ∧
      (∀ t ∈ ts, t.1 = k → c ≤ t.2.1) ∧
      (∃ pk : Key, alookup cell.2 k = some pk ∧ (k, c, pk) ∈ ts))

/-- `s[-1]` as a one-character string (`[]` on the empty string, where the
source would raise `IndexError`). -/
def lastTok (s : Tok) : Tok := s.drop (s.length - 1)

/-- `s[0]` as a one-character string (`[]` on the empty string). -/
def firstTok (s : Tok) : Tok := s.take 1

/-- `''.join(sent[a:b])`. -/
def joinSlice (sent : List Tok) (a b : ℕ) : Tok := ((sent.drop a).take (b - a)).flatten

/-- All transition events generated for target position `next_end` from the
states `src` of one source position (src/kovlive.py lines 117-165): for each
source state, first the identity-fallback event when the span is a single token
with no self-rewrite in the phrase table, then one event per candidate target
phrase when the source span is in the phrase table. -/
def cellTransitions (m : KovModel) (sent : List Tok) (src : List (Key × NLog))
    (next_start next_end : ℕ) : List TransEv :=
  let next_phrase := joinSlice sent next_start (next_end + 1)
  let next_word := sent.getD next_start []
  src.flatMap fun skv =>
    let cur_key := skv.1
    let prob := skv.2
    let conv_w0 := lastTok cur_key.1
    let idPart : List TransEv :=
      if next_start = next_end ∧ phraseHasPair m next_phrase next_word = false then
        [((next_phrase, (next_start, next_end)),
          prob + bigramCost m conv_w0 (firstTok next_phrase)
            + phraseCost m next_phrase next_word,
          cur_key)]
      else []
    let trPart : List TransEv :=
      match alookup m.phrasemodel next_phrase with
      | some inner =>
        inner.map fun cp =>
          ((cp.1, (next_start, next_end)),
           prob + bigramCost m conv_w0 (firstTok cp.1)
             + phraseCost m next_phrase cp.1,
           cur_key)
      | none => []
    idPart ++ trPart

/-- The forward-pass state: the per-position tables `best` and `before_pos`. -/
structure SState where
  best : ℕ → List (Key × NLog)
  before : ℕ → List (Key × Key)

/-- The initial tables: `best[0][(start_symbol, (0, 0))] = 0`, everything else
empty. -/
def initState (start_symbol : Tok) : SState :=
  ⟨fun p => if p = 0 then [((start_symbol, (0, 0)), NLog.zero)] else [],
   fun _ => []⟩

/-- The candidate end positions for one source position:
`range(next_start, min(sent_len, next_start + max_len))` with
`next_start = curpos + 1` (src/kovlive.py lines 113-116). -/
def nextEnds (n maxLen curpos : ℕ) : List ℕ :=
  List.range' (curpos + 1) (min n (curpos + 1 + maxLen) - (curpos + 1))

/-- Process one `(curpos, next_end)` pair: relax every generated transition
event into the tables at `next_end`. -/
def innerStep (m : KovModel) (sent : List Tok) (curpos : ℕ)
    (st : SState) (next_end : ℕ) : SState :=
  let ts := cellTransitions m sent (st.best curpos) (curpos + 1) next_end
  let c := relaxFold (st.best next_end, st.before next_end) ts
  ⟨fun p => if p = next_end then c.1 else st.best p,
   fun p => if p = next_end then c.2 else st.before p⟩

/-- Process one source position `curpos`: the inner loop over `next_end`. -/
def step (m : KovModel) (sent : List Tok) (maxLen : ℕ)
    (st : SState) (curpos : ℕ) : SState :=
  (nextEnds sent.length maxLen curpos).foldl (innerStep m sent curpos) st

/-- The forward pass truncated to the first `k` source positions (used to state
the loop invariants; the full pass is `forwardAux` at `k = sent.length - 1`). -/
def forwardAux (m : KovModel) (sent : List Tok) (start_symbol : Tok)
    (maxLen k : ℕ) : SState :=
  (List.range k).foldl (step m sent maxLen) (initState start_symbol)

/-- The full forward pass: `for curpos in range(sent_len - 1)` over `step`
(src/kovlive.py lines 106-165). -/
def forward (m : KovModel) (sent : List Tok) (start_symbol : Tok)
    (maxLen : ℕ) : SState :=
  forwardAux m sent start_symbol maxLen (sent.length - 1)

/-- The final selection loop (src/kovlive.py lines 198-209): starting from
`("", float("inf"))`, replace the running pair whenever `min_val > val`
(strict), keeping only the phrase component of the key. -/
def selectMin (l : List (Key × NLog)) : Tok × NLog :=
  l.foldl (fun mk kv => if kv.2 < mk.2 then (kv.1.1, kv.2) else mk) ([], NLog.inf)

/-- The backtrace loop (src/kovlive.py lines 214-216): while the current span
end is nonzero, follow the predecessor link at the position given by the span
end, appending each predecessor's phrase.  A missing key models the `KeyError`
the source would raise; the fuel bounds the loop (the source's loop, when it
returns at all, steps through strictly decreasing span ends). -/
def btLoop (before : ℕ → List (Key × Key)) : ℕ → Key → List Tok → Option (List Tok)
  | 0, _, _ => none
  | fuel + 1, k, acc =>
    if k.2.2 = 0 then some acc
    else
      match alookup (before k.2.2) k with
      | some k' => btLoop before fuel k' (acc ++ [k'.1])
      | none => none

/-- `KovLang.search` (src/kovlive.py lines 97-220): bracket the input, run the
forward pass, select the minimum-cost phrase at the final position, look up its
predecessor under the span key `(ind, ind)`, walk the backtrace and reverse.
`none` models an uncaught exception. -/
def search (m : KovModel) (sent_without_symbol : List Tok)
    (start_symbol end_symbol : Tok) (maxLen : ℕ) : Option (List Tok) :=
  let sent := start_symbol :: sent_without_symbol ++ [end_symbol]
  let st := forward m sent start_symbol maxLen
  let ind := sent.length - 1
  let mk := (selectMin (st.best ind)).1
  match alookup (st.before ind) (mk, (ind, ind)) with
  | none => none
  | some k1 => (btLoop st.before sent.length k1 [mk, k1.1]).map List.reverse

/-- `re.sub(r"(^<s>|</s>$)", "", text)`: remove one leading `<s>` and one
trailing `</s>` (the two alternatives can never overlap in a match, so the
substitution is exactly this two-step strip). -/
def stripSymbols (t : Tok) : Tok :=
  let t1 := if sSym.isPrefixOf t then t.drop sSym.length else t
  if eSym.isSuffixOf t1 then t1.take (t1.length - eSym.length) else t1

/-- `KovLang.convert` (src/kovlive.py lines 222-235): run `search` (at its
default symbols and `max_len = 100` — `convert` never forwards its own
`max_len` argument), join the phrases and strip the boundary markers. -/
def convert (m : KovModel) (sent_without_symbol : List Tok) : Option Tok :=
  (search m sent_without_symbol sSym eSym 100).map fun ans => stripSymbols ans.flatten

/-- All transition events relaxed into position `p` over the whole forward
pass, in the order the source generates them (source positions `curpos` in
increasing order; the tables `best[curpos]` the source reads have already
reached their final value when the pass first reads them, so the final tables
of `forward` itself can be used for the source states). -/
def posTransitions (m : KovModel) (sent : List Tok) (start_symbol : Tok)
    (maxLen p : ℕ) : List TransEv :=
  ((List.range (sent.length - 1)).filter
      (fun c => decide (p ∈ nextEnds sent.length maxLen c))).flatMap
    (fun c =>
      cellTransitions m sent ((forward m sent start_symbol maxLen).best c) (c + 1) p)

/-- The predecessor chains described by claim C5: from key `k`, the collected
list of predecessor phrases obtained by following `before` links until a span
end of `0` is reached. -/
inductive TracesList (before : ℕ → List (Key × Key)) : Key → List Tok → Prop
  | stop (k : Key) : k.2.2 = 0 → TracesList before k []
  | step (k k' : Key) (l : List Tok) : k.2.2 ≠ 0 →
      alookup (before k.2.2) k = some k' → TracesList before k' l →
      TracesList before k (k'.1 :: l)

/-- Python `str.split(sep)` for a one-character separator: split at every
occurrence, never merging separators (`"".split(sep) == ['']`). -/
def splitTok (c : Char) : Tok → List Tok
  | [] => [[]]
  | a :: rest =>
    let r := splitTok c rest
    if a = c then [] :: r
    else
      match r with
      | h :: t => (a :: h) :: t
      | [] => [[a]]

/-- Python `str.rstrip()`: drop trailing whitespace. -/
def rstripTok (s : Tok) : Tok := (s.reverse.dropWhile Char.isWhitespace).reverse

/-- `if w1 not in phrasemodel: phrasemodel[w1] = {}; phrasemodel[w1][w2] = prob`. -/
def pmInsert (pm : List (Tok × List (Tok × ℚ))) (w1 w2 : Tok) (p : ℚ) :
    List (Tok × List (Tok × ℚ)) :=
  match alookup pm w1 with
  | some inner => aupdate pm w1 (aupdate inner w2 p)
  | none => pm ++ [(w1, [(w2, p)])]

/-- The loop body of `KovLang.load_phrase_model` (src/kovlive.py lines 30-36)
for one line: split on the tab, parse the probability, split the phrase field on
the comma, store.  `Except.error` models the uncaught `ValueError` raised when a
split does not produce exactly two parts or the float fails to parse. -/
def phraseLineStep (parseProb : Tok → Option ℚ) (pm : List (Tok × List (Tok × ℚ)))
    (line : Tok) : Except Unit (List (Tok × List (Tok × ℚ))) :=
  match splitTok '\t' (rstripTok line) with
  | [words, prob] =>
    match parseProb prob with
    | some p =>
      match splitTok ',' words with
      | [w1, w2] => Except.ok (pmInsert pm w1 w2 p)
      | _ => Except.error ()
    | none => Except.error ()
  | _ => Except.error ()

/-- `KovLang.load_phrase_model` (src/kovlive.py lines 24-37) on the file's
lines.  The float parser is passed as a parameter: `float(...)` is a Python
builtin, not code of this repository, and every theorem below holds for an
arbitrary parser.  An error aborts loading and yields no partial model. -/
def load_phrase_model (parseProb : Tok → Option ℚ) (lines : List Tok) :
    Except Unit (List (Tok × List (Tok × ℚ))) :=
  lines.foldlM (phraseLineStep parseProb) []

/-- The loop body of `KovLang.load_bigram_model` (src/kovlive.py lines 46-53)
for one line: split on the tab, parse the probability, then store a bigram
entry (token field containing a space, which must then split into exactly two
tokens) or a unigram entry. -/
def bigramLineStep (parseProb : Tok → Option ℚ)
    (um_bm : List (Tok × ℚ) × List ((Tok × Tok) × ℚ)) (line : Tok) :
    Except Unit (List (Tok × ℚ) × List ((Tok × Tok) × ℚ)) :=
  match splitTok '\t' (rstripTok line) with
  | [words, prob] =>
    match parseProb prob with
    | some p =>
      if words.contains ' ' then
        match splitTok ' ' words with
        | [w0, w1] => Except.ok (um_bm.1, aupdate um_bm.2 (w0, w1) p)
        | _ => Except.error ()
      else Except.ok (aupdate um_bm.1 words p, um_bm.2)
    | none => Except.error ()
  | _ => Except.error ()

/-- `KovLang.load_bigram_model` (src/kovlive.py lines 39-54) on the file's
lines, with the float parser as a parameter as in `load_phrase_model`. -/
def load_bigram_model (parseProb : Tok → Option ℚ) (lines : List Tok) :
    Except Unit (List (Tok × ℚ) × List ((Tok × Tok) × ℚ)) :=
  lines.foldlM (bigramLineStep parseProb) ([], [])

/-- A phrase-table line is well formed: exactly two tab-separated fields, a
parseable probability, and a phrase field of exactly two comma-separated
phrases. -/
def phraseLineOK (parseProb : Tok → Option ℚ) (line : Tok) : Bool :=
  match splitTok '\t' (rstripTok line) with
  | [words, prob] =>
    (parseProb prob).isSome &&
      (match splitTok ',' words with
       | [_, _] => true
       | _ => false)
  | _ => false

/-- A bigram-table line is well formed: exactly two tab-separated fields, a
parseable probability, and — when the token field contains a space — exactly
two space-separated tokens. -/
def bigramLineOK (parseProb : Tok → Option ℚ) (line : Tok) : Bool :=
  match splitTok '\t' (rstripTok line) with
  | [words, prob] =>
    (parseProb prob).isSome &&
      (!words.contains ' ' ||
        (match splitTok ' ' words with
         | [_, _] => true
         | _ => false))
  | _ => false

/-- Claim C9's well-formedness condition for a bigram-table line, exactly as
the claim enumerates it: two tab-separated fields and a parseable probability
(no condition on the token field).  This definition follows the claim's words
and exists only to be compared with the source's loader. -/
def bigramLineOK_claim (parseProb : Tok → Option ℚ) (line : Tok) : Bool :=
  match splitTok '\t' (rstripTok line) with
  | [_, prob] => (parseProb prob).isSome
  | _ => false

/- ===================  Lemmas and theorems  =================== -/

theorem alookup_mem {α β : Type} [DecidableEq α] {l : List (α × β)} {k : α} {v : β}
    (h : alookup l k = some v) : (k, v) ∈ l := by
  induction l with
  | nil => simp [alookup] at h
  | cons hd tl ih =>
    obtain ⟨a, b⟩ := hd
    by_cases hk : k = a
    · subst hk
      simp [alookup] at h
      simp [h]
    · simp [alookup, hk] at h
      simp [ih h]

theorem alookup_aupdate_self {α β : Type} [DecidableEq α] (l : List (α × β)) (k : α) (v : β) :
    alookup (aupdate l k v) k = some v := by
  induction l with
  | nil => simp [aupdate, alookup]
  | cons hd tl ih =>
    obtain ⟨a, b⟩ := hd
    by_cases hk : k = a
    · subst hk; simp [aupdate, alookup]
    · simp [aupdate, hk, alookup, ih]

theorem alookup_aupdate_ne {α β : Type} [DecidableEq α] (l : List (α × β)) (k k' : α) (v : β)
    (h : k' ≠ k) : alookup (aupdate l k v) k' = alookup l k' := by
  induction l with
  | nil => simp [aupdate, alookup, h]
  | cons hd tl ih =>
    obtain ⟨a, b⟩ := hd
    by_cases hk : k = a
    · subst hk; simp [aupdate, alookup, h]
    · by_cases hk' : k' = a
      · subst hk'; simp [aupdate, hk, alookup]
      · simp [aupdate, hk, alookup, hk', ih]

theorem NLog.le_def (a b : NLog) : a ≤ b ↔ b.val ≤ a.val := Iff.rfl

theorem NLog.lt_def (a b : NLog) : a < b ↔ b.val < a.val := Iff.rfl

theorem NLog.add_val (a b : NLog) : (a + b).val = a.val * b.val := rfl

/-- Bridge: the `NLog` order is exactly the order of the real-valued costs
`-log p` the source computes (for the positive probabilities the source can
actually take a logarithm of). -/
theorem NLog.le_iff_log (a b : NLog) (ha : 0 < a.val) (hb : 0 < b.val) :
    a ≤ b ↔ -Real.log (a.val : ℝ) ≤ -Real.log (b.val : ℝ) := by
  rw [NLog.le_def, neg_le_neg_iff]
  rw [Real.log_le_log_iff (by exact_mod_cast hb) (by exact_mod_cast ha)]
  exact ⟨fun h => by exact_mod_cast h, fun h => by exact_mod_cast h⟩

/-- Bridge: the strict `NLog` order is the strict order of the real costs. -/
theorem NLog.lt_iff_log (a b : NLog) (ha : 0 < a.val) (hb : 0 < b.val) :
    a < b ↔ -Real.log (a.val : ℝ) < -Real.log (b.val : ℝ) := by
  rw [NLog.lt_def, neg_lt_neg_iff]
  rw [Real.log_lt_log_iff (by exact_mod_cast hb) (by exact_mod_cast ha)]
  exact ⟨fun h => by exact_mod_cast h, fun h => by exact_mod_cast h⟩

/-- Bridge: `NLog` addition is exactly addition of the real-valued costs. -/
theorem NLog.add_log (a b : NLog) (ha : 0 < a.val) (hb : 0 < b.val) :
    -Real.log (((a + b).val : ℚ) : ℝ) = -Real.log (a.val : ℝ) + -Real.log (b.val : ℝ) := by
  rw [NLog.add_val]
  push_cast
  rw [Real.log_mul (by positivity) (by positivity)]
  ring

theorem bigram_probD_pos (m : KovModel)
    (hu : ∀ kv ∈ m.unimodel, 0 < kv.2) (hb : ∀ kv ∈ m.bimodel, 0 < kv.2)
    (w0 w1 : Tok) : 0 < bigram_probD m w0 w1 := by
  unfold bigram_probD bigram_prob
  rcases h1 : alookup m.bimodel (w0, w1) with _ | p <;>
    rcases h2 : alookup m.bimodel (w0, star) with _ | q <;>
      rcases h3 : alookup m.unimodel w1 with _ | r <;>
        simp only [h1, h2, h3]
  case none.none.none => norm_num
  case none.none.some =>
    have hr : (0 : ℚ) < r := hu _ (alookup_mem h3)
    ring_nf
    nlinarith
  case none.some.none =>
    have hq : (0 : ℚ) < q := hb _ (alookup_mem h2)
    ring_nf
    nlinarith
  case none.some.some =>
    have hq : (0 : ℚ) < q := hb _ (alookup_mem h2)
    have hr : (0 : ℚ) < r := hu _ (alookup_mem h3)
    ring_nf
    nlinarith
  case some.none.none =>
    have hp : (0 : ℚ) < p := hb _ (alookup_mem h1)
    ring_nf
    nlinarith
  case some.none.some =>
    have hp : (0 : ℚ) < p := hb _ (alookup_mem h1)
    have hr : (0 : ℚ) < r := hu _ (alookup_mem h3)
    ring_nf
    nlinarith
  case some.some.none =>
    have hp : (0 : ℚ) < p := hb _ (alookup_mem h1)
    ring_nf
    nlinarith
  case some.some.some =>
    have hp : (0 : ℚ) < p := hb _ (alookup_mem h1)
    have hr : (0 : ℚ) < r := hu _ (alookup_mem h3)
    ring_nf
    nlinarith

theorem bigram_probD_lt_one (m : KovModel)
    (hu : ∀ kv ∈ m.unimodel, kv.2 ≤ 1) (hb : ∀ kv ∈ m.bimodel, kv.2 ≤ 1)
    (w0 w1 : Tok) : bigram_probD m w0 w1 < 1 := by
  unfold bigram_probD bigram_prob
  rcases h1 : alookup m.bimodel (w0, w1) with _ | p <;>
    rcases h2 : alookup m.bimodel (w0, star) with _ | q <;>
      rcases h3 : alookup m.unimodel w1 with _ | r <;>
        simp only [h1, h2, h3]
  case none.none.none => norm_num
  case none.none.some =>
    have hr : r ≤ (1 : ℚ) := hu _ (alookup_mem h3)
    ring_nf
    nlinarith
  case none.some.none =>
    have hq : q ≤ (1 : ℚ) := hb _ (alookup_mem h2)
    ring_nf
    nlinarith
  case none.some.some =>
    have hq : q ≤ (1 : ℚ) := hb _ (alookup_mem h2)
    have hr : r ≤ (1 : ℚ) := hu _ (alookup_mem h3)
    ring_nf
    nlinarith
  case some.none.none =>
    have hp : p ≤ (1 : ℚ) := hb _ (alookup_mem h1)
    ring_nf
    nlinarith
  case some.none.some =>
    have hp : p ≤ (1 : ℚ) := hb _ (alookup_mem h1)
    have hr : r ≤ (1 : ℚ) := hu _ (alookup_mem h3)
    ring_nf
    nlinarith
  case some.some.none =>
    have hp : p ≤ (1 : ℚ) := hb _ (alookup_mem h1)
    ring_nf
    nlinarith
  case some.some.some =>
    have hp : p ≤ (1 : ℚ) := hb _ (alookup_mem h1)
    have hr : r ≤ (1 : ℚ) := hu _ (alookup_mem h3)
    ring_nf
    nlinarith

theorem phrase_probD_pos (m : KovModel)
    (hp : ∀ e ∈ m.phrasemodel, ∀ iv ∈ e.2, 0 < iv.2)
    (p1 p2 : Tok) : 0 < phrase_probD m p1 p2 := by
  unfold phrase_probD phrase_prob
  rcases h1 : alookup m.phrasemodel p1 with _ | inner
  · norm_num
  · rcases h2 : alookup inner p2 with _ | q <;> simp only [h1, h2]
    · norm_num
    · have hq : (0 : ℚ) < q := hp _ (alookup_mem h1) _ (alookup_mem h2)
      ring_nf
      nlinarith

theorem phrase_probD_lt_one (m : KovModel)
    (hp : ∀ e ∈ m.phrasemodel, ∀ iv ∈ e.2, iv.2 ≤ 1)
    (p1 p2 : Tok) : phrase_probD m p1 p2 < 1 := by
  unfold phrase_probD phrase_prob
  rcases h1 : alookup m.phrasemodel p1 with _ | inner
  · norm_num
  · rcases h2 : alookup inner p2 with _ | q <;> simp only [h1, h2]
    · norm_num
    · have hq : q ≤ (1 : ℚ) := hp _ (alookup_mem h1) _ (alookup_mem h2)
      ring_nf
      nlinarith

theorem star_val : star = ['*'] := rfl

theorem sSym_val : sSym = ['<', 's', '>'] := rfl

theorem eSym_val : eSym = ['<', '/', 's', '>'] := rfl

/-- C1, counterexample: a model whose bigram table holds only the
wildcard-current backoff entry `("a", "*") ↦ 1/2`.  On the query
`(prev, cur) = ("a", "b")` the source adds `λ2 * 1/2` through the key
`("a", "*")`, while the claim's formula — whose backoff entry is the
wildcard-previous key `("*", cur)` — adds nothing, so the two values differ. -/
theorem C1_counterexample :
    bigram_probD ⟨[], [], [((['a'], star), 1/2)]⟩ ['a'] ['b']
      ≠ bigram_prob_spec ⟨[], [], [((['a'], star), 1/2)]⟩ ['a'] ['b'] := by
  unfold bigram_probD bigram_prob bigram_prob_spec
  norm_num [alookup, star_val]
  simp only [Char.reduceEq, ↓reduceIte]
  norm_num

/-- C1, amended: for every pair of tokens `(prev, cur)`, `bigram_prob` with the
default parameters `λ2 = λ1 = 0.95`, `unk_n = 1e6` and the raw-probability flag
returns `p = (1-λ2)*(1-λ1)*(1/unk_n)`, plus `λ2 * bigram[(prev, cur)]` when that
bigram pair is known, otherwise plus `λ2` times the wildcard-CURRENT backoff
entry stored under `(prev, "*")` when such an entry is present, plus
`(1-λ2)*λ1*unigram[cur]` when `cur` has a unigram entry; with the log flag set
the source returns `-ln p` of this same `p`. -/
theorem bigram_prob_eq_interp (m : KovModel) (w0 w1 : Tok) :
    bigram_probD m w0 w1 = bigram_prob_interp m w0 w1 := by
  unfold bigram_probD bigram_prob bigram_prob_interp
  rcases h1 : alookup m.bimodel (w0, w1) with _ | p <;>
    rcases h2 : alookup m.bimodel (w0, star) with _ | q <;>
      rcases h3 : alookup m.unimodel w1 with _ | r <;>
        simp [h1, h2, h3]

/-- C2, counterexample: with bracketed length `3` (so `N = 2`), `L = 100` and
`cur = 1`, the source's loop visits `next_end = 2`, which lies outside the
claim's interval `[cur+1, min(N, cur+1+L)) 
 = [2, 2)`. -/
theorem C2_counterexample :
    2 ∈ nextEnds 3 100 1 ∧ ¬ (2 < min (3 - 1) (1 + 1 + 100)) := by
  decide

/-- C2, amended: for every position `cur` the candidate end positions range
exactly over the half-open interval `[cur+1, min(N+1, cur+1+L))`, where `N+1`
is the bracketed sentence length (the source's `min(sent_len, next_start +
max_len)`), not `min(N, cur+1+L)`. -/
theorem nextEnds_mem_iff (n maxLen curpos e : ℕ) :
    e ∈ nextEnds n maxLen curpos ↔ curpos + 1 ≤ e ∧ e < min n (curpos + 1 + maxLen) := by
  unfold nextEnds
  rw [List.mem_range'_1]
  omega

/-- C6: assuming every probability stored in the phrase, unigram and bigram
tables lies in `(0, 1]`, at the default parameters every smoothed bigram and
phrase probability lies strictly between `0` and `1` — the uniform floor keeps
it positive even for tokens and phrases absent from every table — and hence
the returned cost `-ln p` is defined, finite and strictly positive. -/
theorem cost_pos_finite (m : KovModel)
    (hu : ∀ kv ∈ m.unimodel, 0 < kv.2 ∧ kv.2 ≤ 1)
    (hb : ∀ kv ∈ m.bimodel, 0 < kv.2 ∧ kv.2 ≤ 1)
    (hp : ∀ e ∈ m.phrasemodel, ∀ iv ∈ e.2, 0 < iv.2 ∧ iv.2 ≤ 1) :
    ∀ w0 w1 p1 p2 : Tok,
      (0 < bigram_probD m w0 w1 ∧ bigram_probD m w0 w1 < 1 ∧
        0 < -Real.log ((bigram_probD m w0 w1 : ℚ) : ℝ)) ∧
      (0 < phrase_probD m p1 p2 ∧ phrase_probD m p1 p2 < 1 ∧
        0 < -Real.log ((phrase_probD m p1 p2 : ℚ) : ℝ)) := by
  intro w0 w1 p1 p2
  have hbp := bigram_probD_pos m (fun kv h => (hu kv h).1) (fun kv h => (hb kv h).1) w0 w1
  have hbl := bigram_probD_lt_one m (fun kv h => (hu kv h).2) (fun kv h => (hb kv h).2) w0 w1
  have hpp := phrase_probD_pos m (fun e he iv hiv => (hp e he iv hiv).1) p1 p2
  have hpl := phrase_probD_lt_one m (fun e he iv hiv => (hp e he iv hiv).2) p1 p2
  refine ⟨⟨hbp, hbl, ?_⟩, ⟨hpp, hpl, ?_⟩⟩
  · have hlog : Real.log ((bigram_probD m w0 w1 : ℚ) : ℝ) < 0 :=
      Real.log_neg (by exact_mod_cast hbp) (by exact_mod_cast hbl)
    linarith
  · have hlog : Real.log ((phrase_probD m p1 p2 : ℚ) : ℝ) < 0 :=
      Real.log_neg (by exact_mod_cast hpp) (by exact_mod_cast hpl)
    linarith

/-- Witness for C6 at a concrete model (the empty tables) and concrete tokens. -/
theorem cost_pos_finite_witness :
    (∀ kv ∈ (⟨[], [], []⟩ : KovModel).unimodel, 0 < kv.2 ∧ kv.2 ≤ 1) ∧
    (∀ kv ∈ (⟨[], [], []⟩ : KovModel).bimodel, 0 < kv.2 ∧ kv.2 ≤ 1) ∧
    (∀ e ∈ (⟨[], [], []⟩ : KovModel).phrasemodel, ∀ iv ∈ e.2, 0 < iv.2 ∧ iv.2 ≤ 1) ∧
    (∀ w0 w1 p1 p2 : Tok,
      (0 < bigram_probD ⟨[], [], []⟩ w0 w1 ∧ bigram_probD ⟨[], [], []⟩ w0 w1 < 1 ∧
        0 < -Real.log ((bigram_probD ⟨[], [], []⟩ w0 w1 : ℚ) : ℝ)) ∧
      (0 < phrase_probD ⟨[], [], []⟩ p1 p2 ∧ phrase_probD ⟨[], [], []⟩ p1 p2 < 1 ∧
        0 < -Real.log ((phrase_probD ⟨[], [], []⟩ p1 p2 : ℚ) : ℝ))) :=
  ⟨by simp, by simp, by simp,
   cost_pos_finite ⟨[], [], []⟩ (by simp) (by simp) (by simp)⟩

theorem except_ok_bind {α β : Type} (a : α) (f : α → Except Unit β) :
    (Except.ok a >>= f) = f a := rfl

theorem except_error_bind {α β : Type} (f : α → Except Unit β) :
    (Except.error () >>= f : Except Unit β) = Except.error () := rfl

theorem phraseLineStep_ok_iff (pf : Tok → Option ℚ) (pm : List (Tok × List (Tok × ℚ)))
    (line : Tok) :
    (∃ pm', phraseLineStep pf pm line = Except.ok pm') ↔ phraseLineOK pf line = true := by
  unfold phraseLineStep phraseLineOK
  rcases hsp : splitTok '\t' (rstripTok line) with _ | ⟨w, _ | ⟨p, _ | ⟨x, xs⟩⟩⟩
  · simp [hsp]
  · simp [hsp]
  · rcases hq : pf p with _ | q
    · simp [hsp, hq]
    · rcases hw : splitTok ',' w with _ | ⟨w1, _ | ⟨w2, _ | ⟨y, ys⟩⟩⟩ <;> simp [hsp, hq, hw]
  · simp [hsp]

theorem phraseLineStep_error (pf : Tok → Option ℚ) (pm : List (Tok × List (Tok × ℚ)))
    (line : Tok) (h : phraseLineOK pf line = false) :
    phraseLineStep pf pm line = Except.error () := by
  rcases he : phraseLineStep pf pm line with _ | pm'
  · rfl
  · exfalso
    have := (phraseLineStep_ok_iff pf pm line).1 ⟨pm', he⟩
    rw [h] at this
    exact Bool.false_ne_true this

theorem except_error_bind2 {α β : Type} (u : Unit) (f : α → Except Unit β) :
    (Except.error u >>= f : Except Unit β) = Except.error u := rfl

theorem load_phrase_model_aux (pf : Tok → Option ℚ) :
    ∀ (lines : List Tok) (pm : List (Tok × List (Tok × ℚ))),
      (∃ r, lines.foldlM (phraseLineStep pf) pm = Except.ok r) ↔
        ∀ l ∈ lines, phraseLineOK pf l = true := by
  intro lines
  induction lines with
  | nil => intro pm; simp [pure, Except.pure]
  | cons l ls ih =>
    intro pm
    rw [List.foldlM_cons]
    rcases hs : phraseLineStep pf pm l with u | pm'
    · rw [except_error_bind2]
      constructor
      · rintro ⟨r, hr⟩
        simp at hr
      · intro hall
        have hok := (phraseLineStep_ok_iff pf pm l).2 (hall l (by simp))
        rw [hs] at hok
        obtain ⟨pm'', h⟩ := hok
        simp at h
    · rw [except_ok_bind]
      rw [ih pm']
      constructor
      · intro hall x hx
        rcases List.mem_cons.mp hx with hx | hx
        · subst hx
          exact (phraseLineStep_ok_iff pf pm x).1 ⟨pm', hs⟩
        · exact hall x hx
      · intro hall x hx
        exact hall x (by simp [hx])

theorem bigramLineStep_ok_iff (pf : Tok → Option ℚ)
    (um_bm : List (Tok × ℚ) × List ((Tok × Tok) × ℚ)) (line : Tok) :
    (∃ r, bigramLineStep pf um_bm line = Except.ok r) ↔ bigramLineOK pf line = true := by
  unfold bigramLineStep bigramLineOK
  rcases hsp : splitTok '\t' (rstripTok line) with _ | ⟨w, _ | ⟨p, _ | ⟨x, xs⟩⟩⟩
  · simp [hsp]
  · simp [hsp]
  · rcases hq : pf p with _ | q
    · simp [hsp, hq]
    · by_cases hc : ' ' ∈ w
      · rcases hw : splitTok ' ' w with _ | ⟨w1, _ | ⟨w2, _ | ⟨y, ys⟩⟩⟩ <;>
          simp [hsp, hq, hc, hw]
      · simp [hsp, hq, hc]
  · simp [hsp]

theorem load_bigram_model_aux (pf : Tok → Option ℚ) :
    ∀ (lines : List Tok) (um_bm : List (Tok × ℚ) × List ((Tok × Tok) × ℚ)),
      (∃ r, lines.foldlM (bigramLineStep pf) um_bm = Except.ok r) ↔
        ∀ l ∈ lines, bigramLineOK pf l = true := by
  intro lines
  induction lines with
  | nil => intro um_bm; simp [pure, Except.pure]
  | cons l ls ih =>
    intro um_bm
    rw [List.foldlM_cons]
    rcases hs : bigramLineStep pf um_bm l with u | r'
    · rw [except_error_bind2]
      constructor
      · rintro ⟨r, hr⟩
        simp at hr
      · intro hall
        have hok := (bigramLineStep_ok_iff pf um_bm l).2 (hall l (by simp))
        rw [hs] at hok
        obtain ⟨r'', h⟩ := hok
        simp at h
    · rw [except_ok_bind]
      rw [ih r']
      constructor
      · intro hall x hx
        rcases List.mem_cons.mp hx with hx | hx
        · subst hx
          exact (bigramLineStep_ok_iff pf um_bm x).1 ⟨r', hs⟩
        · exact hall x hx
      · intro hall x hx
        exact hall x (by simp [hx])

/-- C9, counterexample: the line `"a b c\t0.5"` splits into exactly two
tab-separated fields and its probability field parses (the parser here accepts
everything), so by the claim's enumeration loading should succeed — but the
source's `w0, w1 = words.split(" ")` raises a `ValueError` on the three
space-separated tokens, and loading fails. -/
theorem C9_counterexample :
    load_bigram_model (fun _ => some 1) ["a b c\t0.5".data] = Except.error () ∧
    bigramLineOK_claim (fun _ => some 1) "a b c\t0.5".data = true := by
  constructor
  · rfl
  · rfl

/-- C9, amended: phrase-model loading fails (propagating an error with no
partial model) exactly when some line does not split into exactly two
tab-separated fields, or its probability field cannot be parsed, or its phrase
field does not split into exactly two comma-separated phrases; bigram-model
loading fails exactly when some line fails the tab split or the probability
parse, or — the condition the claim omits — its token field contains a space
and does not split into exactly two space-separated tokens.  Every file whose
lines are all well formed in this sense loads without error. -/
theorem load_models_fail_iff (pf : Tok → Option ℚ) (lines1 lines2 : List Tok) :
    ((∃ pm, load_phrase_model pf lines1 = Except.ok pm) ↔
        ∀ l ∈ lines1, phraseLineOK pf l = true) ∧
    (load_phrase_model pf lines1 = Except.error () ↔
        ∃ l ∈ lines1, phraseLineOK pf l = false) ∧
    ((∃ r, load_bigram_model pf lines2 = Except.ok r) ↔
        ∀ l ∈ lines2, bigramLineOK pf l = true) ∧
    (load_bigram_model pf lines2 = Except.error () ↔
        ∃ l ∈ lines2, bigramLineOK pf l = false) := by
  have h1 : (∃ pm, load_phrase_model pf lines1 = Except.ok pm) ↔
      ∀ l ∈ lines1, phraseLineOK pf l = true := load_phrase_model_aux pf lines1 []
  have h2 : (∃ r, load_bigram_model pf lines2 = Except.ok r) ↔
      ∀ l ∈ lines2, bigramLineOK pf l = true := load_bigram_model_aux pf lines2 ([], [])
  refine ⟨h1, ?_, h2, ?_⟩
  · constructor
    · intro he
      by_contra hno
      push_neg at hno
      have hall : ∀ l ∈ lines1, phraseLineOK pf l = true := by
        intro l hl
        rcases Bool.eq_false_or_eq_true (phraseLineOK pf l) with h | h
        · exact h
        · exact absurd h (hno l hl)
      obtain ⟨pm, hok⟩ := h1.2 hall
      rw [he] at hok
      simp at hok
    · rintro ⟨l, hl, hfalse⟩
      rcases hload : load_phrase_model pf lines1 with u | pm
      · cases u; rfl
      · have hall := h1.1 ⟨pm, hload⟩
        have := hall l hl
        rw [hfalse] at this
        exact absurd this (by simp)
  · constructor
    · intro he
      by_contra hno
      push_neg at hno
      have hall : ∀ l ∈ lines2, bigramLineOK pf l = true := by
        intro l hl
        rcases Bool.eq_false_or_eq_true (bigramLineOK pf l) with h | h
        · exact h
        · exact absurd h (hno l hl)
      obtain ⟨r, hok⟩ := h2.2 hall
      rw [he] at hok
      simp at hok
    · rintro ⟨l, hl, hfalse⟩
      rcases hload : load_bigram_model pf lines2 with u | r
      · cases u; rfl
      · have hall := h2.1 ⟨r, hload⟩
        have := hall l hl
        rw [hfalse] at this
        exact absurd this (by simp)

theorem NLog.le_refl (a : NLog) : a ≤ a := by
  rw [NLog.le_def]

theorem NLog.le_trans {a b c : NLog} (h1 : a ≤ b) (h2 : b ≤ c) : a ≤ c := by
  rw [NLog.le_def] at h1 h2 ⊢
  exact h2.trans h1

theorem NLog.le_of_not_le {a b : NLog} (h : ¬ a ≤ b) : b ≤ a := by
  rw [NLog.le_def] at h ⊢
  exact le_of_lt (lt_of_not_le h)

theorem relax_lookup_none (cell : Cell) (t : TransEv) (h : alookup cell.1 t.1 = none) :
    relax cell t = (aupdate cell.1 t.1 t.2.1, aupdate cell.2 t.1 t.2.2) := by
  unfold relax
  rw [h]

theorem relax_overwrite (cell : Cell) (t : TransEv) (v : NLog)
    (h : alookup cell.1 t.1 = some v) (hle : t.2.1 ≤ v) :
    relax cell t = (aupdate cell.1 t.1 t.2.1, aupdate cell.2 t.1 t.2.2) := by
  unfold relax
  rw [h]
  exact if_pos hle

theorem relax_keep (cell : Cell) (t : TransEv) (v : NLog)
    (h : alookup cell.1 t.1 = some v) (hle : ¬ t.2.1 ≤ v) :
    relax cell t = cell := by
  unfold relax
  rw [h]
  exact if_neg hle

theorem relax_inv_step (cell : Cell) (ts : List TransEv) (t : TransEv)
    (inv : RelaxInv cell ts) : RelaxInv (relax cell t) (ts ++ [t]) := by
  intro k
  obtain ⟨hiff, hn2, hsome⟩ := inv k
  by_cases hk : k = t.1
  · subst hk
    rcases h : alookup cell.1 t.1 with _ | v
    · rw [relax_lookup_none cell t h]
      have hno : ∀ t' ∈ ts, t'.1 ≠ t.1 := hiff.1 h
      refine ⟨?_, ?_, ?_⟩
      · rw [alookup_aupdate_self]
        constructor
        · intro hc; simp at hc
        · intro hall
          exact absurd rfl (hall t (by simp))
      · rw [alookup_aupdate_self]
        intro hc; simp at hc
      · intro c hc
        rw [alookup_aupdate_self] at hc
        obtain rfl : t.2.1 = c := by injection hc
        refine ⟨⟨t, by simp, rfl, rfl⟩, ?_, ?_⟩
        · intro t' ht' hkt'
          rcases List.mem_append.mp ht' with h' | h'
          · exact absurd hkt' (hno t' h')
          · simp at h'
            subst h'
            exact NLog.le_refl _
        · exact ⟨t.2.2, alookup_aupdate_self _ _ _, by simp⟩
    · by_cases hle : t.2.1 ≤ v
      · rw [relax_overwrite cell t v h hle]
        refine ⟨?_, ?_, ?_⟩
        · rw [alookup_aupdate_self]
          constructor
          · intro hc; simp at hc
          · intro hall
            exact absurd rfl (hall t (by simp))
        · rw [alookup_aupdate_self]
          intro hc; simp at hc
        · intro c hc
          rw [alookup_aupdate_self] at hc
          obtain rfl : t.2.1 = c := by injection hc
          refine ⟨⟨t, by simp, rfl, rfl⟩, ?_, ?_⟩
          · intro t' ht' hkt'
            rcases List.mem_append.mp ht' with h' | h'
            · exact NLog.le_trans hle ((hsome v h).2.1 t' h' hkt')
            · simp at h'
              subst h'
              exact NLog.le_refl _
          · exact ⟨t.2.2, alookup_aupdate_self _ _ _, by simp⟩
      · rw [relax_keep cell t v h hle]
        refine ⟨?_, ?_, ?_⟩
        · rw [h]
          constructor
          · intro hc; simp at hc
          · intro hall
            exact absurd rfl (hall t (by simp))
        · rw [h]
          intro hc; simp at hc
        · intro c hc
          rw [h] at hc
          obtain rfl : v = c := by injection hc
          obtain ⟨hex, hmin, pk, hpk, hmem⟩ := hsome v h
          refine ⟨?_, ?_, ?_⟩
          · obtain ⟨t', ht', h1', h2'⟩ := hex
            exact ⟨t', by simp [ht'], h1', h2'⟩
          · intro t' ht' hkt'
            rcases List.mem_append.mp ht' with h' | h'
            · exact hmin t' h' hkt'
            · simp at h'
              subst h'
              exact NLog.le_of_not_le hle
          · exact ⟨pk, hpk, by simp [hmem]⟩
  · have hne : ∀ (b : List (Key × NLog)) (w : NLog), alookup (aupdate b t.1 w) k = alookup b k :=
      fun b w => alookup_aupdate_ne b t.1 k w hk
    have hne2 : ∀ (b : List (Key × Key)) (w : Key), alookup (aupdate b t.1 w) k = alookup b k :=
      fun b w => alookup_aupdate_ne b t.1 k w hk
    have hmem : ∀ t' ∈ ts ++ [t], t'.1 = k → t' ∈ ts := by
      intro t' ht' hkt'
      rcases List.mem_append.mp ht' with h' | h'
      · exact h'
      · simp at h'
        subst h'
        exact absurd hkt'.symm hk
    have hcell : alookup (relax cell t).1 k = alookup cell.1 k ∧
        alookup (relax cell t).2 k = alookup cell.2 k := by
      rcases h : alookup cell.1 t.1 with _ | v
      · rw [relax_lookup_none cell t h]
        exact ⟨hne _ _, hne2 _ _⟩
      · by_cases hle : t.2.1 ≤ v
        · rw [relax_overwrite cell t v h hle]
          exact ⟨hne _ _, hne2 _ _⟩
        · rw [relax_keep cell t v h hle]
          exact ⟨rfl, rfl⟩
    rw [hcell.1, hcell.2]
    refine ⟨?_, hn2, ?_⟩
    · constructor
      · intro hnone t' ht' hkt'
        exact hiff.1 hnone t' (hmem t' ht' hkt') hkt'
      · intro hall
        exact hiff.2 (fun t' ht' => hall t' (by simp [ht']))
    · intro c hc
      obtain ⟨hex, hmin, pk, hpk, hmemts⟩ := hsome c hc
      refine ⟨?_, ?_, ?_⟩
      · obtain ⟨t', ht', h1', h2'⟩ := hex
        exact ⟨t', by simp [ht'], h1', h2'⟩
      · intro t' ht' hkt'
        exact hmin t' (hmem t' ht' hkt') hkt'
      · exact ⟨pk, hpk, by simp [hmemts]⟩

theorem relaxFold_append_single (cell : Cell) (ts : List TransEv) (t : TransEv) :
    relaxFold cell (ts ++ [t]) = relax (relaxFold cell ts) t := by
  unfold relaxFold
  rw [List.foldl_append]
  rfl

theorem relaxFold_inv (ts : List TransEv) : RelaxInv (relaxFold ([], []) ts) ts := by
  induction ts using List.reverseRecOn with
  | nil =>
    intro k
    refine ⟨by simp [relaxFold, alookup], by simp [relaxFold, alookup], ?_⟩
    intro c hc
    simp [relaxFold, alookup] at hc
  | append_singleton ts t ih =>
    rw [relaxFold_append_single]
    exact relax_inv_step _ ts t ih

theorem innerStep_cell_ne (m : KovModel) (sent : List Tok) (c : ℕ) (st : SState) (e p : ℕ)
    (h : p ≠ e) :
    (innerStep m sent c st e).best p = st.best p ∧
      (innerStep m sent c st e).before p = st.before p := by
  unfold innerStep
  simp [h]

theorem innerStep_cell_self (m : KovModel) (sent : List Tok) (c : ℕ) (st : SState) (e : ℕ) :
    (innerStep m sent c st e).best e =
        (relaxFold (st.best e, st.before e) (cellTransitions m sent (st.best c) (c + 1) e)).1 ∧
      (innerStep m sent c st e).before e =
        (relaxFold (st.best e, st.before e) (cellTransitions m sent (st.best c) (c + 1) e)).2 := by
  unfold innerStep
  simp

theorem foldl_innerStep_not_mem (m : KovModel) (sent : List Tok) (c : ℕ) :
    ∀ (l : List ℕ) (st : SState) (p : ℕ), p ∉ l →
      (l.foldl (innerStep m sent c) st).best p = st.best p ∧
        (l.foldl (innerStep m sent c) st).before p = st.before p := by
  intro l
  induction l with
  | nil => intro st p _; exact ⟨rfl, rfl⟩
  | cons e es ih =>
    intro st p hp
    rw [List.foldl_cons]
    have hpe : p ≠ e := fun h => hp (by simp [h])
    obtain ⟨h1, h2⟩ := ih (innerStep m sent c st e) p (fun h => hp (by simp [h]))
    obtain ⟨g1, g2⟩ := innerStep_cell_ne m sent c st e p hpe
    exact ⟨h1.trans g1, h2.trans g2⟩

theorem foldl_innerStep_mem (m : KovModel) (sent : List Tok) (c : ℕ) :
    ∀ (l : List ℕ) (st : SState) (p : ℕ), p ∈ l → l.Nodup → (∀ e ∈ l, c < e) →
      (l.foldl (innerStep m sent c) st).best p =
          (relaxFold (st.best p, st.before p) (cellTransitions m sent (st.best c) (c + 1) p)).1 ∧
        (l.foldl (innerStep m sent c) st).before p =
          (relaxFold (st.best p, st.before p) (cellTransitions m sent (st.best c) (c + 1) p)).2 := by
  intro l
  induction l with
  | nil => intro st p hp; simp at hp
  | cons e es ih =>
    intro st p hp hnd hgt
    rw [List.foldl_cons]
    by_cases hpe : p = e
    · subst hpe
      have hpes : p ∉ es := (List.nodup_cons.mp hnd).1
      obtain ⟨h1, h2⟩ := foldl_innerStep_not_mem m sent c es (innerStep m sent c st p) p hpes
      obtain ⟨g1, g2⟩ := innerStep_cell_self m sent c st p
      exact ⟨h1.trans g1, h2.trans g2⟩
    · have hce : c ≠ e := ne_of_lt (hgt e (by simp))
      have hpmem : p ∈ es := by
        rcases List.mem_cons.mp hp with h | h
        · exact absurd h hpe
        · exact h
      obtain ⟨ihb, ihf⟩ := ih (innerStep m sent c st e) p hpmem (List.nodup_cons.mp hnd).2
        (fun e' he' => hgt e' (by simp [he']))
      obtain ⟨hb1, hb2⟩ := innerStep_cell_ne m sent c st e p hpe
      obtain ⟨hc1, _⟩ := innerStep_cell_ne m sent c st e c hce
      rw [ihb, ihf, hb1, hb2, hc1]
      exact ⟨rfl, rfl⟩

theorem step_cell_not_mem (m : KovModel) (sent : List Tok) (maxLen : ℕ) (st : SState)
    (c p : ℕ) (h : p ∉ nextEnds sent.length maxLen c) :
    (step m sent maxLen st c).best p = st.best p ∧
      (step m sent maxLen st c).before p = st.before p :=
  foldl_innerStep_not_mem m sent c _ st p h

theorem step_cell_mem (m : KovModel) (sent : List Tok) (maxLen : ℕ) (st : SState)
    (c p : ℕ) (h : p ∈ nextEnds sent.length maxLen c) :
    (step m sent maxLen st c).best p =
        (relaxFold (st.best p, st.before p) (cellTransitions m sent (st.best c) (c + 1) p)).1 ∧
      (step m sent maxLen st c).before p =
        (relaxFold (st.best p, st.before p) (cellTransitions m sent (st.best c) (c + 1) p)).2 := by
  apply foldl_innerStep_mem m sent c _ st p h
  · unfold nextEnds
    exact List.nodup_range' _ _
  · intro e he
    have := (nextEnds_mem_iff sent.length maxLen c e).1 he
    omega

theorem step_cell_le (m : KovModel) (sent : List Tok) (maxLen : ℕ) (st : SState)
    (c p : ℕ) (h : p ≤ c) :
    (step m sent maxLen st c).best p = st.best p ∧
      (step m sent maxLen st c).before p = st.before p := by
  apply step_cell_not_mem
  intro hm
  have := (nextEnds_mem_iff sent.length maxLen c p).1 hm
  omega

theorem forwardAux_succ (m : KovModel) (sent : List Tok) (s : Tok) (maxLen k : ℕ) :
    forwardAux m sent s maxLen (k + 1) =
      step m sent maxLen (forwardAux m sent s maxLen k) k := by
  unfold forwardAux
  rw [List.range_succ, List.foldl_append]
  rfl

theorem forwardAux_stab (m : KovModel) (sent : List Tok) (s : Tok) (maxLen : ℕ) :
    ∀ (k2 k1 p : ℕ), p ≤ k1 → k1 ≤ k2 →
      (forwardAux m sent s maxLen k2).best p = (forwardAux m sent s maxLen k1).best p ∧
        (forwardAux m sent s maxLen k2).before p = (forwardAux m sent s maxLen k1).before p := by
  intro k2
  induction k2 with
  | zero =>
    intro k1 p _ hk
    have : k1 = 0 := Nat.le_zero.mp hk
    subst this
    exact ⟨rfl, rfl⟩
  | succ k ih =>
    intro k1 p hp hk
    rcases Nat.lt_or_ge k1 (k + 1) with h | h
    · have hk1k : k1 ≤ k := Nat.lt_succ_iff.mp h
      rw [forwardAux_succ]
      obtain ⟨s1, s2⟩ := step_cell_le m sent maxLen (forwardAux m sent s maxLen k) k p
        (le_trans hp hk1k)
      obtain ⟨i1, i2⟩ := ih k1 p hp hk1k
      exact ⟨s1.trans i1, s2.trans i2⟩
    · have : k1 = k + 1 := le_antisymm hk h
      subst this
      exact ⟨rfl, rfl⟩

theorem flatMap_congr_mem {α β : Type} {l : List α} {f g : α → List β}
    (h : ∀ a ∈ l, f a = g a) : l.flatMap f = l.flatMap g := by
  induction l with
  | nil => rfl
  | cons a as ih =>
    simp only [List.flatMap_cons]
    rw [h a (by simp), ih (fun a' ha' => h a' (by simp [ha']))]

theorem forwardAux_accum (m : KovModel) (sent : List Tok) (s : Tok) (maxLen : ℕ) :
    ∀ (k p : ℕ), 1 ≤ p →
      ((forwardAux m sent s maxLen k).best p, (forwardAux m sent s maxLen k).before p) =
        relaxFold ([], [])
          (((List.range k).filter (fun c => decide (p ∈ nextEnds sent.length maxLen c))).flatMap
            (fun c =>
              cellTransitions m sent ((forwardAux m sent s maxLen c).best c) (c + 1) p)) := by
  intro k
  induction k with
  | zero =>
    intro p hp
    have hp0 : p ≠ 0 := by omega
    simp [forwardAux, initState, relaxFold, hp0]
  | succ k ih =>
    intro p hp
    rw [forwardAux_succ]
    rw [List.range_succ, List.filter_append, List.flatMap_append]
    by_cases hm : p ∈ nextEnds sent.length maxLen k
    · have hfil : List.filter (fun c => decide (p ∈ nextEnds sent.length maxLen c)) [k] = [k] := by
        simp [hm]
      rw [hfil]
      obtain ⟨s1, s2⟩ := step_cell_mem m sent maxLen (forwardAux m sent s maxLen k) k p hm
      rw [s1, s2]
      have hpair : ((forwardAux m sent s maxLen k).best p,
          (forwardAux m sent s maxLen k).before p) =
          relaxFold ([], [])
            (((List.range k).filter
                (fun c => decide (p ∈ nextEnds sent.length maxLen c))).flatMap
              (fun c =>
                cellTransitions m sent ((forwardAux m sent s maxLen c).best c) (c + 1) p)) :=
        ih p hp
      unfold relaxFold
      rw [List.foldl_append]
      have hpair' : (relaxFold ([], [])
          (((List.range k).filter
              (fun c => decide (p ∈ nextEnds sent.length maxLen c))).flatMap
            (fun c =>
              cellTransitions m sent ((forwardAux m sent s maxLen c).best c) (c + 1) p))) =
          ((forwardAux m sent s maxLen k).best p, (forwardAux m sent s maxLen k).before p) :=
        hpair.symm
      unfold relaxFold at hpair'
      rw [hpair']
      simp [List.flatMap_cons]
    · have hfil : List.filter (fun c => decide (p ∈ nextEnds sent.length maxLen c)) [k] = [] := by
        simp [hm]
      rw [hfil]
      obtain ⟨s1, s2⟩ := step_cell_not_mem m sent maxLen (forwardAux m sent s maxLen k) k p hm
      rw [s1, s2]
      simpa using ih p hp

theorem forward_cell_eq (m : KovModel) (sent : List Tok) (s : Tok) (maxLen p : ℕ)
    (hp : 1 ≤ p) :
    ((forward m sent s maxLen).best p, (forward m sent s maxLen).before p) =
      relaxFold ([], []) (posTransitions m sent s maxLen p) := by
  unfold posTransitions forward
  rw [forwardAux_accum m sent s maxLen (sent.length - 1) p hp]
  congr 1
  apply flatMap_congr_mem
  intro c hc
  have hcr : c ∈ List.range (sent.length - 1) := List.mem_of_mem_filter hc
  have hclt : c < sent.length - 1 := List.mem_range.mp hcr
  obtain ⟨h1, _⟩ := forwardAux_stab m sent s maxLen (sent.length - 1) c c (le_refl c)
    (le_of_lt hclt)
  rw [h1]

/-- C3: a lattice state keyed by `(converted phrase, (next_start, next_end))`
at position `next_end` is inserted on first reach with its cost and
predecessor; on any later reach the stored cost and predecessor are both
overwritten exactly when the newly computed cost is less than or equal to the
stored cost (first conjunct, describing one relaxation); consequently, after
the forward pass, each position's stored cost is the minimum over all
transition events that reached that key, and its predecessor comes from an
event achieving that minimum (second conjunct, `RelaxInv` over the events
`posTransitions` generated for that position in source order). -/
theorem forward_relax_min (m : KovModel) (sent : List Tok) (s : Tok) (maxLen p : ℕ)
    (hp : 1 ≤ p) :
    (∀ (cell : Cell) (t : TransEv),
      (alookup cell.1 t.1 = none →
        relax cell t = (aupdate cell.1 t.1 t.2.1, aupdate cell.2 t.1 t.2.2)) ∧
      (∀ v : NLog, alookup cell.1 t.1 = some v →
        (t.2.1 ≤ v → relax cell t = (aupdate cell.1 t.1 t.2.1, aupdate cell.2 t.1 t.2.2)) ∧
        (¬ t.2.1 ≤ v → relax cell t = cell))) ∧
    RelaxInv ((forward m sent s maxLen).best p, (forward m sent s maxLen).before p)
      (posTransitions m sent s maxLen p) := by
  constructor
  · intro cell t
    exact ⟨relax_lookup_none cell t,
      fun v hv => ⟨relax_overwrite cell t v hv, relax_keep cell t v hv⟩⟩
  · rw [forward_cell_eq m sent s maxLen p hp]
    exact relaxFold_inv _

/-- Witness for C3 at a concrete model, sentence and position. -/
theorem forward_relax_min_witness :
    1 ≤ 1 ∧
    ((∀ (cell : Cell) (t : TransEv),
      (alookup cell.1 t.1 = none →
        relax cell t = (aupdate cell.1 t.1 t.2.1, aupdate cell.2 t.1 t.2.2)) ∧
      (∀ v : NLog, alookup cell.1 t.1 = some v →
        (t.2.1 ≤ v → relax cell t = (aupdate cell.1 t.1 t.2.1, aupdate cell.2 t.1 t.2.2)) ∧
        (¬ t.2.1 ≤ v → relax cell t = cell))) ∧
    RelaxInv ((forward ⟨[], [], []⟩ [sSym, eSym] sSym 100).best 1,
        (forward ⟨[], [], []⟩ [sSym, eSym] sSym 100).before 1)
      (posTransitions ⟨[], [], []⟩ [sSym, eSym] sSym 100 1)) :=
  ⟨le_refl 1, forward_relax_min ⟨[], [], []⟩ [sSym, eSym] sSym 100 1 (le_refl 1)⟩

theorem NLog.le_of_lt {a b : NLog} (h : a < b) : a ≤ b := by
  rw [NLog.lt_def] at h
  rw [NLog.le_def]
  exact h.le

theorem NLog.lt_of_not_le {a b : NLog} (h : ¬ a ≤ b) : b < a := by
  rw [NLog.le_def] at h
  rw [NLog.lt_def]
  exact not_le.mp h

theorem NLog.le_of_not_lt {a b : NLog} (h : ¬ a < b) : b ≤ a := by
  rw [NLog.lt_def] at h
  rw [NLog.le_def]
  exact not_lt.mp h

theorem NLog.not_lt_of_le {a b : NLog} (h : a ≤ b) : ¬ b < a := by
  rw [NLog.le_def] at h
  rw [NLog.lt_def]
  exact not_lt.mpr h

theorem NLog.lt_of_le_of_lt {a b c : NLog} (h1 : a ≤ b) (h2 : b < c) : a < c := by
  rw [NLog.le_def] at h1
  rw [NLog.lt_def] at h2 ⊢
  exact h2.trans_le h1

theorem NLog.lt_of_lt_of_le {a b c : NLog} (h1 : a < b) (h2 : b ≤ c) : a < c := by
  rw [NLog.lt_def] at h1 ⊢
  rw [NLog.le_def] at h2
  exact h2.trans_lt h1

theorem NLog.lt_trans {a b c : NLog} (h1 : a < b) (h2 : b < c) : a < c := by
  rw [NLog.lt_def] at h1 h2 ⊢
  exact h2.trans h1

theorem find?_congr_mem {α : Type} {l : List α} {p q : α → Bool}
    (h : ∀ x ∈ l, p x = q x) : l.find? p = l.find? q := by
  induction l with
  | nil => rfl
  | cons a as ih =>
    have hqa := h a (by simp)
    cases hpa : p a with
    | true =>
      rw [List.find?_cons_of_pos _ hpa, List.find?_cons_of_pos _ (hqa ▸ hpa)]
    | false =>
      rw [List.find?_cons_of_neg _ (by simp [hpa]),
        List.find?_cons_of_neg _ (by simp [← hqa, hpa])]
      exact ih fun x hx => h x (by simp [hx])

theorem exists_min_nlog : ∀ (l : List (Key × NLog)), l ≠ [] →
    ∃ kv ∈ l, ∀ kv' ∈ l, kv.2 ≤ kv'.2 := by
  intro l
  induction l with
  | nil => intro h; exact absurd rfl h
  | cons kv rest ih =>
    intro _
    by_cases hre : rest = []
    · subst hre
      refine ⟨kv, by simp, ?_⟩
      intro kv' h'
      rcases List.mem_cons.mp h' with h' | h'
      · subst h'; exact NLog.le_refl _
      · simp at h'
    · obtain ⟨mkv, hmem, hmin⟩ := ih hre
      by_cases hle : kv.2 ≤ mkv.2
      · refine ⟨kv, by simp, ?_⟩
        intro kv' h'
        rcases List.mem_cons.mp h' with h' | h'
        · subst h'; exact NLog.le_refl _
        · exact NLog.le_trans hle (hmin kv' h')
      · refine ⟨mkv, by simp [hmem], ?_⟩
        intro kv' h'
        rcases List.mem_cons.mp h' with h' | h'
        · subst h'
          exact NLog.le_of_lt (NLog.lt_of_not_le hle)
        · exact hmin kv' h'

theorem selectMin_aux :
    ∀ (l : List (Key × NLog)) (mk : Tok × NLog),
      l.foldl (fun mk kv => if kv.2 < mk.2 then (kv.1.1, kv.2) else mk) mk =
        match l.find? (fun kv0 => decide ((∀ kv' ∈ l, kv0.2 ≤ kv'.2) ∧ kv0.2 < mk.2)) with
        | some kv0 => (kv0.1.1, kv0.2)
        | none => mk := by
  intro l
  induction l with
  | nil => intro mk; rfl
  | cons kv rest ih =>
    intro mk
    rw [List.foldl_cons]
    by_cases hlt : kv.2 < mk.2
    · rw [if_pos hlt]
      rw [ih (kv.1.1, kv.2)]
      by_cases hmin : ∀ r ∈ rest, kv.2 ≤ r.2
      · have hfind1 : rest.find?
            (fun kv0 => decide ((∀ kv' ∈ rest, kv0.2 ≤ kv'.2) ∧ kv0.2 < (kv.1.1, kv.2).2)) =
            none := by
          rw [List.find?_eq_none]
          intro r hr
          simp only [decide_eq_true_eq, not_and]
          intro _
          exact NLog.not_lt_of_le (hmin r hr)
        rw [hfind1]
        have hfind2 : (kv :: rest).find?
            (fun kv0 => decide ((∀ kv' ∈ kv :: rest, kv0.2 ≤ kv'.2) ∧ kv0.2 < mk.2)) =
            some kv := by
          apply List.find?_cons_of_pos
          simp only [decide_eq_true_eq]
          refine ⟨?_, hlt⟩
          intro kv' h'
          rcases List.mem_cons.mp h' with h' | h'
          · subst h'; exact NLog.le_refl _
          · exact hmin kv' h'
        rw [hfind2]
      · obtain ⟨r0, hr0i⟩ := not_forall.mp hmin
        obtain ⟨hr0mem, hr0⟩ := Classical.not_imp.mp hr0i
        have hr0lt : r0.2 < kv.2 := NLog.lt_of_not_le hr0
        have hkvfail : ¬ ((∀ kv' ∈ kv :: rest, kv.2 ≤ kv'.2) ∧ kv.2 < mk.2) := by
          rintro ⟨hall, -⟩
          exact hr0 (hall r0 (by simp [hr0mem]))
        rw [List.find?_cons_of_neg _ (by simp only [decide_eq_true_eq]; exact hkvfail)]
        have hcongr : rest.find?
            (fun kv0 => decide ((∀ kv' ∈ kv :: rest, kv0.2 ≤ kv'.2) ∧ kv0.2 < mk.2)) =
            rest.find?
              (fun kv0 => decide ((∀ kv' ∈ rest, kv0.2 ≤ kv'.2) ∧ kv0.2 < (kv.1.1, kv.2).2)) := by
          apply find?_congr_mem
          intro r hr
          rw [decide_eq_decide]
          constructor
          · rintro ⟨hall, -⟩
            have hminr : ∀ kv' ∈ rest, r.2 ≤ kv'.2 := fun kv' h' => hall kv' (by simp [h'])
            exact ⟨hminr, NLog.lt_of_le_of_lt (hminr r0 hr0mem) hr0lt⟩
          · rintro ⟨hminr, hrlt⟩
            refine ⟨?_, NLog.lt_trans hrlt hlt⟩
            intro kv' h'
            rcases List.mem_cons.mp h' with h' | h'
            · subst h'; exact NLog.le_of_lt hrlt
            · exact hminr kv' h'
        rw [hcongr]
        have hrne : rest ≠ [] := by
          intro h
          rw [h] at hr0mem
          simp at hr0mem
        obtain ⟨mr, hmr, hmrmin⟩ := exists_min_nlog rest hrne
        have hex : ∃ x, x ∈ rest ∧ (fun kv0 =>
            decide ((∀ kv' ∈ rest, kv0.2 ≤ kv'.2) ∧ kv0.2 < (kv.1.1, kv.2).2)) x = true :=
          ⟨mr, hmr, by
            simp only [decide_eq_true_eq]
            exact ⟨hmrmin, NLog.lt_of_le_of_lt (hmrmin r0 hr0mem) hr0lt⟩⟩
        obtain ⟨y, hy⟩ := Option.isSome_iff_exists.mp (List.find?_isSome.mpr hex)
        rw [hy]
    · rw [if_neg hlt]
      rw [ih mk]
      have hmkle : mk.2 ≤ kv.2 := NLog.le_of_not_lt hlt
      have hkvfail : ¬ ((∀ kv' ∈ kv :: rest, kv.2 ≤ kv'.2) ∧ kv.2 < mk.2) := by
        rintro ⟨-, h⟩
        exact hlt h
      rw [List.find?_cons_of_neg _ (by simp only [decide_eq_true_eq]; exact hkvfail)]
      have hcongr : rest.find?
          (fun kv0 => decide ((∀ kv' ∈ kv :: rest, kv0.2 ≤ kv'.2) ∧ kv0.2 < mk.2)) =
          rest.find? (fun kv0 => decide ((∀ kv' ∈ rest, kv0.2 ≤ kv'.2) ∧ kv0.2 < mk.2)) := by
        apply find?_congr_mem
        intro r hr
        rw [decide_eq_decide]
        constructor
        · rintro ⟨hall, hrlt⟩
          exact ⟨fun kv' h' => hall kv' (by simp [h']), hrlt⟩
        · rintro ⟨hminr, hrlt⟩
          refine ⟨?_, hrlt⟩
          intro kv' h'
          rcases List.mem_cons.mp h' with h' | h'
          · subst h'
            exact NLog.le_of_lt (NLog.lt_of_lt_of_le hrlt hmkle)
          · exact hminr kv' h'
      rw [hcongr]

/-- C4: the final selection loop scans the stored states in iteration order
with a strict less-than comparison against the running minimum (in contrast to
the non-strict comparison used during relaxation), so it returns the phrase of
the FIRST state, in iteration order, whose cost is less than or equal to every
stored cost — on exact cost ties the first state encountered wins.  The
hypothesis says every stored cost is finite (beats the initial
`float("inf")`), which holds for every cost the source can compute. -/
theorem selectMin_first_min (l : List (Key × NLog))
    (hpos : ∀ kv ∈ l, kv.2 < NLog.inf) (hne : l ≠ []) :
    ∃ kv, l.find? (fun kv0 => decide (∀ kv' ∈ l, kv0.2 ≤ kv'.2)) = some kv ∧
      selectMin l = (kv.1.1, kv.2) := by
  have haux := selectMin_aux l (([], NLog.inf) : Tok × NLog)
  have hcongr : l.find?
      (fun kv0 => decide ((∀ kv' ∈ l, kv0.2 ≤ kv'.2) ∧
        kv0.2 < ((([], NLog.inf) : Tok × NLog)).2)) =
      l.find? (fun kv0 => decide (∀ kv' ∈ l, kv0.2 ≤ kv'.2)) := by
    apply find?_congr_mem
    intro r hr
    rw [decide_eq_decide]
    constructor
    · rintro ⟨hall, -⟩; exact hall
    · intro hall; exact ⟨hall, hpos r hr⟩
  rw [hcongr] at haux
  obtain ⟨kv0, hkv0mem, hkv0min⟩ := exists_min_nlog l hne
  have hex : ∃ x, x ∈ l ∧ (fun kv0 => decide (∀ kv' ∈ l, kv0.2 ≤ kv'.2)) x = true :=
    ⟨kv0, hkv0mem, by simp only [decide_eq_true_eq]; exact hkv0min⟩
  obtain ⟨kv, hkv⟩ := Option.isSome_iff_exists.mp (List.find?_isSome.mpr hex)
  refine ⟨kv, hkv, ?_⟩
  unfold selectMin
  rw [haux, hkv]

/-- Witness for C4 at a concrete state list with an exact cost tie. -/
theorem selectMin_first_min_witness :
    (∀ kv ∈ [((['a'], (1, 1)), (⟨1⟩ : NLog)), ((['b'], (1, 1)), (⟨1⟩ : NLog))],
        kv.2 < NLog.inf) ∧
    ([((['a'], (1, 1)), (⟨1⟩ : NLog)), ((['b'], (1, 1)), (⟨1⟩ : NLog))] ≠ []) ∧
    (∃ kv, [((['a'], (1, 1)), (⟨1⟩ : NLog)), ((['b'], (1, 1)), (⟨1⟩ : NLog))].find?
        (fun kv0 => decide (∀ kv' ∈ [((['a'], (1, 1)), (⟨1⟩ : NLog)),
            ((['b'], (1, 1)), (⟨1⟩ : NLog))], kv0.2 ≤ kv'.2)) = some kv ∧
      selectMin [((['a'], (1, 1)), (⟨1⟩ : NLog)), ((['b'], (1, 1)), (⟨1⟩ : NLog))] =
        (kv.1.1, kv.2)) :=
  ⟨by simp [NLog.lt_def, NLog.inf], by simp,
   selectMin_first_min _ (by simp [NLog.lt_def, NLog.inf]) (by simp)⟩

theorem NLog.lt_val (a b : NLog) : (a < b) = (b.val < a.val) := rfl

theorem NLog.mk_add_mk (a b : ℚ) : (NLog.mk a + NLog.mk b) = NLog.mk (a * b) := rfl

/-- C10: the backtrace looks up the chosen final state's predecessor under the
fixed span key `(ind, ind)` with `ind = N` the bracketed length minus one,
regardless of the span actually recorded for the winning state: whenever no
state with the winning phrase and span exactly `(N, N)` exists in the
predecessor table — in particular when the minimum-cost final state was
produced by a phrase covering more source tokens than the end marker alone —
the lookup raises `KeyError` (modelled `none`) and `search` fails; when a key
with span `(N, N)` and the same phrase happens to exist, the backtrace follows
that state's chain instead. -/
theorem search_fixed_span_key (m : KovModel) (toks : List Tok)
    (ssym esym : Tok) (maxLen : ℕ)
    (h : alookup
        ((forward m (ssym :: toks ++ [esym]) ssym maxLen).before
          ((ssym :: toks ++ [esym]).length - 1))
        ((selectMin ((forward m (ssym :: toks ++ [esym]) ssym maxLen).best
            ((ssym :: toks ++ [esym]).length - 1))).1,
          ((ssym :: toks ++ [esym]).length - 1,
            (ssym :: toks ++ [esym]).length - 1)) = none) :
    search m toks ssym esym maxLen = none := by
  unfold search
  simp only [h]

/-- Witness for C10: a phrase table rewriting the two-token span `"a</s>"`
(source token plus end marker) to `"X"`; the winning final state has phrase
`"X"` with span `(1, 2)`, the fixed-key lookup at span `(2, 2)` misses, and
`search` fails. -/
theorem search_fixed_span_key_witness :
    (alookup
        ((forward ⟨[("a</s>".data, [(['X'], 9/10)])], [], []⟩
            (sSym :: [['a']] ++ [eSym]) sSym 100).before 2)
        ((selectMin ((forward ⟨[("a</s>".data, [(['X'], 9/10)])], [], []⟩
            (sSym :: [['a']] ++ [eSym]) sSym 100).best 2)).1, (2, 2)) = none) ∧
    search ⟨[("a</s>".data, [(['X'], 9/10)])], [], []⟩ [['a']] sSym eSym 100 = none := by
  have h : alookup
      ((forward ⟨[("a</s>".data, [(['X'], 9/10)])], [], []⟩
          (sSym :: [['a']] ++ [eSym]) sSym 100).before 2)
      ((selectMin ((forward ⟨[("a</s>".data, [(['X'], 9/10)])], [], []⟩
          (sSym :: [['a']] ++ [eSym]) sSym 100).best 2)).1, (2, 2)) = none := by
    simp only [forward, forwardAux, initState, List.length_cons, List.length_append,
      List.length_nil]
    norm_num
    simp [step, innerStep, nextEnds, List.range_succ, cellTransitions, relaxFold, relax,
      alookup, aupdate, joinSlice, phraseHasPair, selectMin, lastTok, firstTok,
      bigramCost, phraseCost, sSym_val, eSym_val, NLog.inf,
      NLog.zero, bigram_probD, bigram_prob, phrase_probD, phrase_prob, star_val,
      List.range']
    norm_num [NLog.lt_val, NLog.mk_add_mk]
    intro hx
    simp at hx
  exact ⟨h, search_fixed_span_key ⟨[("a</s>".data, [(['X'], 9/10)])], [], []⟩
    [['a']] sSym eSym 100 h⟩

theorem btLoop_traces (before : ℕ → List (Key × Key)) :
    ∀ (fuel : ℕ) (k : Key) (acc res : List Tok),
      btLoop before fuel k acc = some res →
      ∃ l, res = acc ++ l ∧ TracesList before k l := by
  intro fuel
  induction fuel with
  | zero =>
    intro k acc res h
    simp [btLoop] at h
  | succ f ih =>
    intro k acc res h
    unfold btLoop at h
    by_cases hz : k.2.2 = 0
    · rw [if_pos hz] at h
      obtain rfl : acc = res := by injection h
      exact ⟨[], by simp, TracesList.stop k hz⟩
    · rw [if_neg hz] at h
      rcases hlk : alookup (before k.2.2) k with _ | k'
      · rw [hlk] at h
        simp at h
      · rw [hlk] at h
        obtain ⟨l', hres, htr⟩ := ih k' (acc ++ [k'.1]) res h
        exact ⟨k'.1 :: l', by simp [hres], TracesList.step k k' l' hz hlk htr⟩

theorem search_some_cases (m : KovModel) (toks : List Tok) (ssym esym : Tok)
    (maxLen : ℕ) (ans : List Tok)
    (h : search m toks ssym esym maxLen = some ans) :
    ∃ pk res,
      alookup
          ((forward m (ssym :: toks ++ [esym]) ssym maxLen).before
            ((ssym :: toks ++ [esym]).length - 1))
          ((selectMin ((forward m (ssym :: toks ++ [esym]) ssym maxLen).best
              ((ssym :: toks ++ [esym]).length - 1))).1,
            ((ssym :: toks ++ [esym]).length - 1,
              (ssym :: toks ++ [esym]).length - 1)) = some pk ∧
      btLoop ((forward m (ssym :: toks ++ [esym]) ssym maxLen).before)
          (ssym :: toks ++ [esym]).length pk
          [(selectMin ((forward m (ssym :: toks ++ [esym]) ssym maxLen).best
              ((ssym :: toks ++ [esym]).length - 1))).1, pk.1] = some res ∧
      ans = res.reverse := by
  simp only [search] at h
  rcases hlk : alookup
      ((forward m (ssym :: toks ++ [esym]) ssym maxLen).before
        ((ssym :: toks ++ [esym]).length - 1))
      ((selectMin ((forward m (ssym :: toks ++ [esym]) ssym maxLen).best
          ((ssym :: toks ++ [esym]).length - 1))).1,
        ((ssym :: toks ++ [esym]).length - 1,
          (ssym :: toks ++ [esym]).length - 1)) with _ | pk
  · rw [hlk] at h
    simp at h
  · rw [hlk] at h
    simp only [Option.map_eq_some'] at h
    obtain ⟨res, hres, hans⟩ := h
    exact ⟨pk, res, rfl, hres, hans.symm⟩

/-- C5: whenever `convert` returns a result, that result is obtained from the
`search` answer — the reversal of the list collecting first the phrase of the
minimum-cost final state, then its predecessor's phrase, then each further
predecessor's phrase following the predecessor links until a span end of `0`
is reached (`TracesList`) — by concatenating the phrases in forward order and
removing one leading `"<s>"` and one trailing `"</s>"` by an anchored match
(`stripSymbols`). -/
theorem convert_backtrace (m : KovModel) (toks : List Tok) (out : Tok)
    (h : convert m toks = some out) :
    ∃ ans pk l,
      search m toks sSym eSym 100 = some ans ∧
      alookup
          ((forward m (sSym :: toks ++ [eSym]) sSym 100).before
            ((sSym :: toks ++ [eSym]).length - 1))
          ((selectMin ((forward m (sSym :: toks ++ [eSym]) sSym 100).best
              ((sSym :: toks ++ [eSym]).length - 1))).1,
            ((sSym :: toks ++ [eSym]).length - 1,
              (sSym :: toks ++ [eSym]).length - 1)) = some pk ∧
      TracesList ((forward m (sSym :: toks ++ [eSym]) sSym 100).before) pk l ∧
      ans = ((selectMin ((forward m (sSym :: toks ++ [eSym]) sSym 100).best
          ((sSym :: toks ++ [eSym]).length - 1))).1 :: pk.1 :: l).reverse ∧
      out = stripSymbols ans.flatten := by
  unfold convert at h
  simp only [Option.map_eq_some'] at h
  obtain ⟨ans, hans, hout⟩ := h
  obtain ⟨pk, res, hlk, hbt, hrev⟩ := search_some_cases m toks sSym eSym 100 ans hans
  obtain ⟨l, hres, htr⟩ := btLoop_traces _ _ _ _ _ hbt
  refine ⟨ans, pk, l, hans, hlk, htr, ?_, hout.symm⟩
  rw [hrev, hres]
  simp

/-- Witness for C5: the empty input over the empty model. -/
theorem convert_backtrace_witness :
    convert ⟨[], [], []⟩ [] = some [] ∧
    (∃ ans pk l,
      search ⟨[], [], []⟩ [] sSym eSym 100 = some ans ∧
      alookup
          ((forward ⟨[], [], []⟩ (sSym :: [] ++ [eSym]) sSym 100).before
            ((sSym :: [] ++ [eSym] : List Tok).length - 1))
          ((selectMin ((forward ⟨[], [], []⟩ (sSym :: [] ++ [eSym]) sSym 100).best
              ((sSym :: [] ++ [eSym] : List Tok).length - 1))).1,
            ((sSym :: [] ++ [eSym] : List Tok).length - 1,
              (sSym :: [] ++ [eSym] : List Tok).length - 1)) = some pk ∧
      TracesList ((forward ⟨[], [], []⟩ (sSym :: [] ++ [eSym]) sSym 100).before) pk l ∧
      ans = ((selectMin ((forward ⟨[], [], []⟩ (sSym :: [] ++ [eSym]) sSym 100).best
          ((sSym :: [] ++ [eSym] : List Tok).length - 1))).1 :: pk.1 :: l).reverse ∧
      ([] : Tok) = stripSymbols ans.flatten) := by
  have h : convert ⟨[], [], []⟩ [] = some [] := by
    simp only [convert, search, forward, forwardAux, initState, List.length_cons,
      List.length_append, List.length_nil]
    norm_num
    simp [step, innerStep, nextEnds, List.range_succ, cellTransitions, relaxFold, relax,
      alookup, aupdate, joinSlice, phraseHasPair, selectMin, lastTok, firstTok,
      bigramCost, phraseCost, sSym_val, eSym_val, NLog.inf, NLog.zero, bigram_probD,
      bigram_prob, phrase_probD, phrase_prob, star_val, List.range', btLoop,
      stripSymbols, List.isPrefixOf, List.isSuffixOf, NLog.lt_val, NLog.mk_add_mk]
    norm_num [NLog.lt_val, NLog.mk_add_mk]
  exact ⟨h, convert_backtrace ⟨[], [], []⟩ [] [] h⟩

theorem phraseHasPair_none (m : KovModel) (p1 p2 : Tok)
    (h : alookup m.phrasemodel p1 = none) : phraseHasPair m p1 p2 = false := by
  unfold phraseHasPair
  rw [h]

theorem phrase_probD_unknown (m : KovModel) (p1 p2 : Tok)
    (h : alookup m.phrasemodel p1 = none) : phrase_probD m p1 p2 = 1 / 20000000 := by
  unfold phrase_probD phrase_prob
  rw [h]
  norm_num

theorem joinSlice_single (sent : List Tok) (p : ℕ) (h : p < sent.length) :
    joinSlice sent p (p + 1) = sent.getD p [] := by
  unfold joinSlice
  have h1 : p + 1 - p = 1 := by omega
  rw [h1, List.drop_eq_getElem_cons h, List.take_succ_cons, List.take_zero,
    List.flatten_cons, List.flatten_nil, List.append_nil,
    List.getD_eq_getElem?_getD, List.getElem?_eq_getElem h]
  rfl

theorem forward_cell_zero (m : KovModel) (sent : List Tok) (s : Tok) (maxLen : ℕ) :
    (forward m sent s maxLen).best 0 = [((s, (0, 0)), NLog.zero)] ∧
      (forward m sent s maxLen).before 0 = [] := by
  unfold forward
  obtain ⟨h1, h2⟩ := forwardAux_stab m sent s maxLen (sent.length - 1) 0 0 (le_refl 0)
    (Nat.zero_le _)
  rw [h1, h2]
  exact ⟨rfl, rfl⟩

theorem flatMap_single {α β : Type} {l : List α} {f : α → List β} {a : α}
    (hnd : l.Nodup) (ha : a ∈ l) (hz : ∀ b ∈ l, b ≠ a → f b = []) :
    l.flatMap f = f a := by
  induction l with
  | nil => simp at ha
  | cons x xs ih =>
    rw [List.flatMap_cons]
    rcases List.mem_cons.mp ha with h | h
    · subst h
      have hxs : ∀ b ∈ xs, f b = [] := by
        intro b hb
        apply hz b (by simp [hb])
        intro hba
        subst hba
        exact (List.nodup_cons.mp hnd).1 hb
      rw [List.flatMap_eq_nil_iff.mpr hxs]
      simp
    · have hxa : x ≠ a := by
        intro hxa
        subst hxa
        exact (List.nodup_cons.mp hnd).1 h
      rw [hz x (by simp) hxa,
        ih (List.nodup_cons.mp hnd).2 h (fun b hb hba => hz b (by simp [hb]) hba)]
      simp

theorem posTransitions_id (m : KovModel) (sent : List Tok) (p : ℕ)
    (hp1 : 1 ≤ p) (hpn : p < sent.length)
    (hspan : ∀ i j : ℕ, 1 ≤ i → i ≤ j → j < sent.length →
      alookup m.phrasemodel (joinSlice sent i (j + 1)) = none) :
    posTransitions m sent sSym 100 p =
      cellTransitions m sent ((forward m sent sSym 100).best (p - 1)) (p - 1 + 1) p := by
  unfold posTransitions
  apply flatMap_single
  · exact List.Nodup.filter _ (List.nodup_range _)
  · rw [List.mem_filter]
    constructor
    · rw [List.mem_range]
      omega
    · rw [decide_eq_true_eq, nextEnds_mem_iff]
      omega
  · intro c hc hne
    rw [List.mem_filter] at hc
    have hcr : c < sent.length - 1 := List.mem_range.mp hc.1
    have hcm := (nextEnds_mem_iff sent.length 100 c p).1 (of_decide_eq_true hc.2)
    have hlt : c + 1 < p := by omega
    simp only [cellTransitions]
    rw [List.flatMap_eq_nil_iff]
    intro skv _
    have hcond : ¬ (c + 1 = p ∧
        phraseHasPair m (joinSlice sent (c + 1) (p + 1)) (sent.getD (c + 1) []) = false) := by
      rintro ⟨h, -⟩
      omega
    rw [if_neg hcond]
    rw [hspan (c + 1) p (by omega) (by omega) (by omega)]
    simp

theorem bigramCost_val (m : KovModel) (a b : Tok) :
    (bigramCost m a b).val = bigram_probD m a b := rfl

theorem phraseCost_val (m : KovModel) (a b : Tok) :
    (phraseCost m a b).val = phrase_probD m a b := rfl

theorem cellTransitions_single_id (m : KovModel) (sent : List Tok) (w : Tok) (v : NLog)
    (q p : ℕ) (hpn : p < sent.length)
    (hnone : alookup m.phrasemodel (sent.getD p []) = none) :
    cellTransitions m sent [((w, (q, q)), v)] p p =
      [(((sent.getD p [], (p, p)) : Key),
        v + bigramCost m (lastTok w) (firstTok (sent.getD p []))
          + phraseCost m (sent.getD p []) (sent.getD p []),
        ((w, (q, q)) : Key))] := by
  simp only [cellTransitions, List.flatMap_cons, List.flatMap_nil]
  rw [joinSlice_single sent p hpn]
  rw [hnone]
  rw [if_pos ⟨trivial, phraseHasPair_none m _ _ hnone⟩]
  simp

theorem relaxFold_singleton (t : TransEv) :
    relaxFold ([], []) [t] = ([(t.1, t.2.1)], [(t.1, t.2.2)]) := by
  simp [relaxFold, relax, alookup, aupdate]

theorem identity_cells (m : KovModel)
    (hu : ∀ kv ∈ m.unimodel, 0 < kv.2) (hb : ∀ kv ∈ m.bimodel, 0 < kv.2)
    (toks : List Tok)
    (hspan : ∀ i j : ℕ, 1 ≤ i → i ≤ j → j < (sSym :: toks ++ [eSym]).length →
      alookup m.phrasemodel (joinSlice (sSym :: toks ++ [eSym]) i (j + 1)) = none) :
    ∀ p : ℕ, 1 ≤ p → p < (sSym :: toks ++ [eSym]).length →
      ∃ v : NLog, 0 < v.val ∧
        (forward m (sSym :: toks ++ [eSym]) sSym 100).best p =
          [(((sSym :: toks ++ [eSym]).getD p [], (p, p)), v)] ∧
        (forward m (sSym :: toks ++ [eSym]) sSym 100).before p =
          [(((sSym :: toks ++ [eSym]).getD p [], (p, p)),
            ((sSym :: toks ++ [eSym]).getD (p - 1) [], (p - 1, p - 1)))] := by
  intro p
  induction p using Nat.strong_induction_on with
  | _ p ih =>
    intro hp1 hpn
    have hnone : alookup m.phrasemodel ((sSym :: toks ++ [eSym]).getD p []) = none := by
      have hx := hspan p p hp1 (le_refl p) hpn
      rwa [joinSlice_single _ p hpn] at hx
    obtain ⟨w, v', hv', hbsrc, hw⟩ :
        ∃ (w : Tok) (v' : NLog), 0 < v'.val ∧
          (forward m (sSym :: toks ++ [eSym]) sSym 100).best (p - 1) =
            [((w, (p - 1, p - 1)), v')] ∧
          w = (sSym :: toks ++ [eSym]).getD (p - 1) [] := by
      rcases Nat.eq_or_lt_of_le hp1 with h1 | h1
      · have hp0 : p - 1 = 0 := by omega
        rw [hp0]
        exact ⟨sSym, NLog.zero, by norm_num [NLog.zero],
          (forward_cell_zero m _ sSym 100).1, rfl⟩
      · obtain ⟨v', hv', hb', _⟩ := ih (p - 1) (by omega) (by omega) (by omega)
        exact ⟨_, v', hv', hb', rfl⟩
    have hcell := forward_cell_eq m (sSym :: toks ++ [eSym]) sSym 100 p hp1
    rw [posTransitions_id m _ p hp1 hpn hspan] at hcell
    have hsucc : p - 1 + 1 = p := by omega
    rw [hsucc, hbsrc] at hcell
    rw [cellTransitions_single_id m _ w v' (p - 1) p hpn hnone] at hcell
    rw [relaxFold_singleton] at hcell
    refine ⟨v' + bigramCost m (lastTok w) (firstTok ((sSym :: toks ++ [eSym]).getD p []))
      + phraseCost m ((sSym :: toks ++ [eSym]).getD p [])
          ((sSym :: toks ++ [eSym]).getD p []), ?_, ?_, ?_⟩
    · rw [NLog.add_val, NLog.add_val, bigramCost_val, phraseCost_val]
      apply mul_pos
      · exact mul_pos hv' (bigram_probD_pos m hu hb _ _)
      · rw [phrase_probD_unknown m _ _ hnone]
        norm_num
    · have hfst := congrArg Prod.fst hcell
      simpa using hfst
    · have hsnd := congrArg Prod.snd hcell
      rw [hw] at hsnd
      simpa using hsnd

theorem selectMin_single (k : Key) (v : NLog) (hv : 0 < v.val) :
    selectMin [(k, v)] = (k.1, v) := by
  unfold selectMin
  rw [List.foldl_cons, List.foldl_nil]
  rw [if_pos (show v < (([], NLog.inf) : Tok × NLog).2 from by
    rw [NLog.lt_def]
    exact hv)]

theorem range_map_getD : ∀ (l : List Tok),
    (List.range l.length).map (fun i => l.getD i []) = l := by
  intro l
  induction l with
  | nil => simp
  | cons a as ih =>
    rw [List.length_cons, List.range_succ_eq_map, List.map_cons, List.map_map]
    simp only [List.getD_cons_zero]
    have hcomp : ∀ i ∈ List.range as.length,
        ((fun i => (a :: as).getD i []) ∘ Nat.succ) i = as.getD i [] := by
      intro i _
      simp [List.getD_cons_succ]
    rw [List.map_congr_left hcomp, ih]

theorem stripSymbols_wrap (x : Tok) : stripSymbols (sSym ++ (x ++ eSym)) = x := by
  unfold stripSymbols
  rw [if_pos (show sSym.isPrefixOf (sSym ++ (x ++ eSym)) = true from
    List.isPrefixOf_iff_prefix.mpr (List.prefix_append _ _))]
  rw [List.drop_left]
  rw [if_pos (show eSym.isSuffixOf (x ++ eSym) = true from
    List.isSuffixOf_iff_suffix.mpr (List.suffix_append _ _))]
  rw [List.length_append, Nat.add_sub_cancel, List.take_left]

/-- Core of claims C7 and C8: when no contiguous span of the bracketed
sentence occurs in the phrase table, only the identity-fallback transitions
fire, every position holds exactly one state, the forced path reproduces the
bracketed sentence, and `convert` returns the concatenated input unchanged.
The hypotheses on the unigram and bigram tables are the data-model invariant
(stored probabilities are positive); they make every computed cost finite. -/
theorem identity_convert (m : KovModel)
    (hu : ∀ kv ∈ m.unimodel, 0 < kv.2) (hb : ∀ kv ∈ m.bimodel, 0 < kv.2)
    (toks : List Tok)
    (hspan : ∀ i j : ℕ, 1 ≤ i → i ≤ j → j < (sSym :: toks ++ [eSym]).length →
      alookup m.phrasemodel (joinSlice (sSym :: toks ++ [eSym]) i (j + 1)) = none) :
    convert m toks = some toks.flatten := by
  have hn : (sSym :: toks ++ [eSym]).length = toks.length + 2 := by simp
  have hind : (sSym :: toks ++ [eSym]).length - 1 = toks.length + 1 := by omega
  have hchain : ∀ q : ℕ, q ≤ toks.length → ∀ fuel : ℕ, q + 1 ≤ fuel → ∀ acc : List Tok,
      btLoop ((forward m (sSym :: toks ++ [eSym]) sSym 100).before) fuel
          (((sSym :: toks ++ [eSym]).getD q [], (q, q))) acc =
        some (acc ++ (List.range q).reverse.map
          (fun i => (sSym :: toks ++ [eSym]).getD i [])) := by
    intro q
    induction q with
    | zero =>
      intro _ fuel hfuel acc
      rcases fuel with _ | f
      · omega
      · simp [btLoop]
    | succ q ihq =>
      intro hq fuel hfuel acc
      rcases fuel with _ | f
      · omega
      · obtain ⟨v, hv, hbest, hbefore⟩ := identity_cells m hu hb toks hspan (q + 1)
          (by omega) (by rw [hn]; omega)
        unfold btLoop
        rw [if_neg (show ¬ ((((sSym :: toks ++ [eSym]).getD (q + 1) [],
            (q + 1, q + 1)) : Key).2.2 = 0) from by simp)]
        rw [hbefore]
        rw [show alookup [(((sSym :: toks ++ [eSym]).getD (q + 1) [], (q + 1, q + 1)),
            ((sSym :: toks ++ [eSym]).getD (q + 1 - 1) [], (q + 1 - 1, q + 1 - 1)))]
            (((sSym :: toks ++ [eSym]).getD (q + 1) [], (q + 1, q + 1)) : Key) =
            some ((sSym :: toks ++ [eSym]).getD (q + 1 - 1) [],
              (q + 1 - 1, q + 1 - 1)) from by simp [alookup]]
        have hstep := ihq (by omega) f (by omega)
          (acc ++ [((sSym :: toks ++ [eSym]).getD (q + 1 - 1) [],
            (q + 1 - 1, q + 1 - 1)).1])
        simp only [Nat.add_sub_cancel] at hstep ⊢
        rw [hstep]
        rw [List.range_succ]
        simp
  obtain ⟨v, hv, hbest, hbefore⟩ := identity_cells m hu hb toks hspan (toks.length + 1)
    (by omega) (by rw [hn]; omega)
  have hsel : selectMin [(((sSym :: toks ++ [eSym]).getD (toks.length + 1) [],
      (toks.length + 1, toks.length + 1)), v)] =
      ((sSym :: toks ++ [eSym]).getD (toks.length + 1) [], v) :=
    selectMin_single _ v hv
  have hch := hchain toks.length (le_refl _) (toks.length + 2) (by omega)
    [(sSym :: toks ++ [eSym]).getD (toks.length + 1) [],
      (sSym :: toks ++ [eSym]).getD toks.length []]
  have hans : (([(sSym :: toks ++ [eSym]).getD (toks.length + 1) [],
        (sSym :: toks ++ [eSym]).getD toks.length []] ++
      (List.range toks.length).reverse.map
        (fun i => (sSym :: toks ++ [eSym]).getD i [])) : List Tok).reverse =
      sSym :: toks ++ [eSym] := by
    have h1 : (List.range (toks.length + 2)).map
        (fun i => (sSym :: toks ++ [eSym]).getD i []) = sSym :: toks ++ [eSym] := by
      have h2 := range_map_getD (sSym :: toks ++ [eSym])
      rwa [hn] at h2
    have h2 : (List.range (toks.length + 2)).map
        (fun i => (sSym :: toks ++ [eSym]).getD i []) =
        (List.range toks.length).map (fun i => (sSym :: toks ++ [eSym]).getD i []) ++
          [(sSym :: toks ++ [eSym]).getD toks.length [],
            (sSym :: toks ++ [eSym]).getD (toks.length + 1) []] := by
      rw [List.range_succ, List.range_succ, List.map_append, List.map_append]
      simp
    rw [List.reverse_append, List.map_reverse, List.reverse_reverse]
    rw [show ([(sSym :: toks ++ [eSym]).getD (toks.length + 1) [],
        (sSym :: toks ++ [eSym]).getD toks.length []] : List Tok).reverse =
        [(sSym :: toks ++ [eSym]).getD toks.length [],
          (sSym :: toks ++ [eSym]).getD (toks.length + 1) []] from rfl]
    rw [← h2]
    exact h1
  have h21 : toks.length + 2 - 1 = toks.length + 1 := by omega
  unfold convert
  simp only [search, hn, h21, hbest, hsel, hbefore]
  rw [show alookup [(((sSym :: toks ++ [eSym]).getD (toks.length + 1) [],
      (toks.length + 1, toks.length + 1)),
      ((sSym :: toks ++ [eSym]).getD (toks.length + 1 - 1) [],
        (toks.length + 1 - 1, toks.length + 1 - 1)))]
      (((sSym :: toks ++ [eSym]).getD (toks.length + 1) [],
        (toks.length + 1, toks.length + 1)) : Key) =
      some ((sSym :: toks ++ [eSym]).getD (toks.length + 1 - 1) [],
        (toks.length + 1 - 1, toks.length + 1 - 1)) from by simp [alookup]]
  simp only [Nat.add_sub_cancel]
  rw [hch]
  simp only [Option.map_some']
  rw [hans]
  rw [show (sSym :: toks ++ [eSym]).flatten = sSym ++ (toks.flatten ++ eSym) from by simp]
  rw [stripSymbols_wrap toks.flatten]

/-- C8: for every input sequence none of whose contiguous spans — including
each single token and the boundary markers — occurs as a key in the phrase
table, decoding completes via the identity fallback and the floor
probabilities, and `convert` returns the input unchanged (the concatenation of
its tokens).  The positivity hypotheses on the unigram and bigram tables are
the data-model invariant (stored probabilities lie in `(0, 1]`; only
positivity is needed); the nonemptiness hypothesis on the tokens reflects that
the source indexes `s[0]` and `s[-1]`, which raise on an empty token. -/
theorem convert_identity_unchanged (m : KovModel) (toks : List Tok)
    (hu : ∀ kv ∈ m.unimodel, 0 < kv.2) (hb : ∀ kv ∈ m.bimodel, 0 < kv.2)
    (htoks : ∀ t ∈ toks, t ≠ [])
    (hspan : ∀ i j : ℕ, 1 ≤ i → i ≤ j → j < (sSym :: toks ++ [eSym]).length →
      alookup m.phrasemodel (joinSlice (sSym :: toks ++ [eSym]) i (j + 1)) = none) :
    convert m toks = some toks.flatten :=
  identity_convert m hu hb toks hspan

/-- Witness for C8: a single out-of-vocabulary token over the empty model is
returned unchanged. -/
theorem convert_identity_unchanged_witness :
    (∀ kv ∈ (⟨[], [], []⟩ : KovModel).unimodel, 0 < kv.2) ∧
    (∀ kv ∈ (⟨[], [], []⟩ : KovModel).bimodel, 0 < kv.2) ∧
    (∀ t ∈ [(['a'] : Tok)], t ≠ []) ∧
    (∀ i j : ℕ, 1 ≤ i → i ≤ j → j < (sSym :: [['a']] ++ [eSym]).length →
      alookup (⟨[], [], []⟩ : KovModel).phrasemodel
        (joinSlice (sSym :: [['a']] ++ [eSym]) i (j + 1)) = none) ∧
    convert ⟨[], [], []⟩ [['a']] = some ['a'] :=
  ⟨by simp, by simp, by simp,
   fun i j _ _ _ => rfl,
   convert_identity_unchanged ⟨[], [], []⟩ [['a']] (by simp) (by simp) (by simp)
     (fun i j _ _ _ => rfl)⟩

/-- C7: for the empty input token sequence — the bracketed sentence then
consists only of the start and end markers, assumed to have no phrase-table
entries — `convert` returns the empty string and raises no exception.  The
positivity hypotheses are the data-model invariant on the bigram/unigram
tables. -/
theorem convert_empty_input (m : KovModel)
    (hu : ∀ kv ∈ m.unimodel, 0 < kv.2) (hb : ∀ kv ∈ m.bimodel, 0 < kv.2)
    (hs : alookup m.phrasemodel sSym = none)
    (he : alookup m.phrasemodel eSym = none) :
    convert m [] = some [] := by
  apply identity_convert m hu hb []
  intro i j hi hij hjn
  have hlen : (sSym :: ([] : List Tok) ++ [eSym]).length = 2 := rfl
  rw [hlen] at hjn
  obtain rfl : i = 1 := by omega
  obtain rfl : j = 1 := by omega
  rw [joinSlice_single _ 1 (by rw [hlen]; omega)]
  exact he

/-- Witness for C7 at the empty model. -/
theorem convert_empty_input_witness :
    (∀ kv ∈ (⟨[], [], []⟩ : KovModel).unimodel, 0 < kv.2) ∧
    (∀ kv ∈ (⟨[], [], []⟩ : KovModel).bimodel, 0 < kv.2) ∧
    alookup (⟨[], [], []⟩ : KovModel).phrasemodel sSym = none ∧
    alookup (⟨[], [], []⟩ : KovModel).phrasemodel eSym = none ∧
    convert ⟨[], [], []⟩ [] = some [] :=
  ⟨by simp, by simp, rfl, rfl,
   convert_empty_input ⟨[], [], []⟩ (by simp) (by simp) rfl rfl⟩
